import Mathlib

set_option maxHeartbeats 1000000
set_option maxRecDepth 4000

/-!
Verification of the marker-recognition and in-place replacement engine of the
lazy-latex editor extension.  The JavaScript sources are embedded shallowly:
lines of text are lists of characters, the scanner loops become fuel-indexed
structural recursions (the fuel is always at least the length of the remaining
input, which every loop iteration shortens), and the two generation calls are
modelled as oracle values (`Option` results, `none` standing for a thrown
exception).
-/

namespace LazyLatex

/-- A line of text, as the list of its characters. -/
abbrev Str := List Char

/-- Characters of a string literal, for readable concrete inputs. -/
def chars (s : String) : Str := s.data

/-! ## Marker scanner (src/wrappers.js, `findWrappersInLine`) -/

/-- Marker categories: run length 2 is `inline`, 3 is `display`, 4 is `anything`. -/
inductive WType where
  | inline
  | display
  | anything
deriving DecidableEq, Repr

/-- `count === 2 ? 'inline' : count === 3 ? 'display' : 'anything'` from wrappers.js. -/
def typeOfCount (count : Nat) : WType :=
  if count = 2 then WType.inline
  else if count = 3 then WType.display
  else WType.anything

/-- Delimiter run length of a marker category. -/
def cntOf : WType → Nat
  | WType.inline => 2
  | WType.display => 3
  | WType.anything => 4

/-- A recognized wrapper: `{ type, inner, start, end }` of wrappers.js
(`end` is renamed `endIdx`, Lean reserves the word). -/
structure Wrapper where
  type : WType
  inner : Str
  start : Nat
  endIdx : Nat
deriving DecidableEq, Repr

instance : Inhabited Wrapper := ⟨⟨WType.inline, [], 0, 0⟩⟩

/-- Length of the leading run of semicolons
(the `while (j < n && lineText[j] === ';') j++` loops of wrappers.js). -/
def countRun : Str → Nat
  | [] => 0
  | c :: cs => if c = ';' then countRun cs + 1 else 0

/-- Drop the leading run of semicolons. -/
def dropSemis : Str → Str
  | [] => []
  | c :: cs => if c = ';' then dropSemis cs else c :: cs

/-- The inner closing-delimiter search of `findWrappersInLine` (wrappers.js
lines 61-91): scan forward from the content start; at each semicolon run of
length exactly `count` stop and return the pair (run start, run end) of
offsets relative to the content start; skip runs of any other length; step
over other characters.  The fuel argument only forces structural termination:
every iteration consumes at least one character, so any fuel of at least the
string length gives the loop's exact behaviour. -/
def findCloserF (count : Nat) : Nat → Str → Nat → Option (Nat × Nat)
  | 0, _, _ => none
  | _ + 1, [], _ => none
  | fuel + 1, c :: cs, off =>
    if c = ';' then
      let r := countRun (c :: cs)
      if r = count then some (off, off + r)
      else findCloserF count fuel (dropSemis (c :: cs)) (off + r)
    else findCloserF count fuel cs (off + 1)

/-- The outer scanning loop of `findWrappersInLine` (wrappers.js lines 39-104),
acting on the suffix of the line that starts at absolute offset `i`.  At a
semicolon, the maximal run is measured; runs of length 2, 3 or 4 open a
candidate marker and search for a same-length closer (emitting a wrapper and
resuming after the closer when found, resuming after the opener run when not);
all other runs are skipped whole; other characters are stepped over. -/
def scanLoopF : Nat → Str → Nat → List Wrapper
  | 0, _, _ => []
  | _ + 1, [], _ => []
  | fuel + 1, c :: cs, i =>
    if c = ';' then
      let r := countRun (c :: cs)
      if r = 2 ∨ r = 3 ∨ r = 4 then
        let rest := dropSemis (c :: cs)
        match findCloserF r rest.length rest 0 with
        | some (ce, me) =>
          ⟨typeOfCount r, rest.take ce, i, i + r + me⟩ :: scanLoopF fuel (rest.drop me) (i + r + me)
        | none => scanLoopF fuel rest (i + r)
      else scanLoopF fuel (dropSemis (c :: cs)) (i + r)
    else scanLoopF fuel cs (i + 1)

/-- Whitespace in the sense of JavaScript's `String.prototype.trim`. -/
def jsWhitespace (c : Char) : Bool :=
  c = ' ' || c = '\t' || c = '\n' || c = '\r' || c = '\x0b' || c = '\x0c' || c = '\u00A0'

/-- JavaScript `s.trim()`. -/
def jsTrim (s : Str) : Str :=
  ((s.dropWhile jsWhitespace).reverse.dropWhile jsWhitespace).reverse

/-- JavaScript `s.startsWith(pat)`. -/
def leadsWith : Str → Str → Bool
  | _, [] => true
  | [], _ :: _ => false
  | c :: cs, p :: ps => c == p && leadsWith cs ps

/-- JavaScript `s.endsWith(pat)`. -/
def trailsWith (s pat : Str) : Bool := leadsWith s.reverse pat.reverse

/-- The comment-only-line checks of `findWrappersInLine` (wrappers.js lines
19-33): a LaTeX line whose trimmed text starts with `%`, or a Markdown line
whose trimmed text starts with `<!--` and ends with `-->`. -/
def commentExcluded (lineText languageId : Str) : Bool :=
  let trimmed := jsTrim lineText
  (languageId == chars "latex" && leadsWith trimmed (chars "%"))
    || (languageId == chars "markdown" && leadsWith trimmed (chars "<!--")
        && trailsWith trimmed (chars "-->"))

/-- `findWrappersInLine` of wrappers.js: comment-only lines yield no wrappers,
otherwise the scanning loop runs over the whole line from offset 0. -/
def findWrappersInLine (lineText languageId : Str) : List Wrapper :=
  if commentExcluded lineText languageId then []
  else scanLoopF lineText.length lineText 0

/-- A maximal run of exactly `len` semicolons starting at offset `p` of `s`
(all characters of the span are `;`, the character before — when the run does
not start the string — is not `;`, and the character after — when the run does
not end the string — is not `;`). -/
def isRunAt (s : Str) (p len : Nat) : Prop :=
  0 < len ∧ p + len ≤ s.length ∧ (∀ k, k < len → s.getD (p + k) 'x' = ';')
    ∧ (p = 0 ∨ s.getD (p - 1) 'x' ≠ ';')
    ∧ (p + len = s.length ∨ s.getD (p + len) 'x' ≠ ';')

instance (s : Str) (p len : Nat) : Decidable (isRunAt s p len) := by
  unfold isRunAt
  exact inferInstance

/-! ## Response demultiplexer (llmClient, `generateLatexForBatch` tail) -/

/-- Split on `/\r?\n/` as JavaScript's `result.split(/\r?\n/)` does: a line
break is `\r\n` or a bare `\n`; a `\r` not followed by `\n` stays in its line. -/
def splitLines : Str → List Str
  | [] => [[]]
  | [c] => if c = '\n' then [[], []] else [[c]]
  | c :: c' :: cs =>
    if c = '\n' then [] :: splitLines (c' :: cs)
    else if c = '\r' ∧ c' = '\n' then [] :: splitLines cs
    else
      match splitLines (c' :: cs) with
      | [] => [[c], []]
      | l :: ls => (c :: l) :: ls

/-- Join lines with `\n`. -/
def joinLines (ls : List Str) : Str := List.intercalate ['\n'] ls

/-- The surviving lines of a batched response: split on line breaks, trim each
line, drop the blank ones (`generateLatexForBatch`, llmClient lines 279-282). -/
def nonBlankLines (response : Str) : List Str :=
  ((splitLines response).map jsTrim).filter (fun l => l ≠ [])

/-- The demultiplexing step of `generateLatexForBatch` (llmClient lines
279-288): take the first `expectedCount` surviving lines positionally, filling
any missing slot with the empty string (`lines[i] || ''`). -/
def demultiplex (response : Str) (expectedCount : Nat) : List Str :=
  (List.range expectedCount).map (fun i => (nonBlankLines response).getD i [])

/-! ## Context assembler (src/context.js, `getContextBeforeLine`) -/

/-- `getContextBeforeLine` of context.js.  The document is the list of its
lines, `contextLines` the configured `lazy-latex.context.lines` value (an
integer; `!contextLines || contextLines <= 0` collapses to `≤ 0`).  The
preceding window `[max 0 (lineNumber - contextLines), lineNumber - 1]` is read
line by line and joined with `\n`. -/
def getContextBeforeLine (document : List Str) (lineNumber : Nat) (contextLines : Int) : Str :=
  if contextLines ≤ 0 then []
  else
    let startLine : Int := max 0 ((lineNumber : Int) - contextLines)
    let endLine : Int := (lineNumber : Int) - 1
    if endLine < startLine then []
    else
      joinLines ((List.range (endLine.toNat + 1 - startLine.toNat)).map
        (fun k => document.getD (startLine.toNat + k) []))

/-! ## Replacement engine (src/extension.js, `processLineForWrappers`) -/

/-- A pending replacement `{ start, end, text }` of extension.js. -/
structure Entry where
  start : Nat
  endIdx : Nat
  text : Str
deriving DecidableEq, Repr

/-- Replace the span `[a, b)` of `s` by `t` (one `editBuilder.replace`). -/
def replaceSpan (s : Str) (a b : Nat) (t : Str) : Str :=
  s.take a ++ t ++ s.drop b

/-- Apply a list of replacements one after the other, each against the string
produced so far (the `for (const r of sorted)` loop of extension.js lines
194-197, the list being already sorted by descending `start`). -/
def applyDescList (s : Str) : List Entry → Str
  | [] => s
  | e :: rest => applyDescList (replaceSpan s e.start e.endIdx e.text) rest

/-- The substring `[a, b)` of `s` (JavaScript `s.slice(a, b)` for `a ≤ b`). -/
def sliceStr (s : Str) (a b : Nat) : Str := (s.drop a).take (b - a)

/-- Simultaneous, independent substitution of ascending non-overlapping spans:
the text before the first span, then its replacement, then the text between
spans, and so on, closing with the tail of the original string.  This is the
interference-free specification the right-to-left application is checked
against. -/
def spliceAll (s : Str) : Nat → List Entry → Str
  | pos, [] => s.drop pos
  | pos, e :: rest => sliceStr s pos e.start ++ e.text ++ spliceAll s e.endIdx rest

/-- Insert an entry into a list kept sorted by descending `start`. -/
def insertDesc (e : Entry) : List Entry → List Entry
  | [] => [e]
  | x :: xs => if x.start ≤ e.start then e :: x :: xs else x :: insertDesc e xs

/-- `replacements.sort((a, b) => b.start - a.start)` of extension.js line 193:
sort by descending `start` offset. -/
def sortDesc : List Entry → List Entry
  | [] => []
  | e :: es => insertDesc e (sortDesc es)

/-- Structure holding one output delimiter pair. -/
structure DelimPair where
  openD : Str
  closeD : Str

/-- Inline and display delimiter pairs, as returned by `getOutputDelimiters`. -/
structure Delims where
  inl : DelimPair
  disp : DelimPair

/-- The wrapped replacement text built for a math wrapper (extension.js lines
112-125): inline math is wrapped in the inline pair; display math becomes
`open\nlatex\nclose\n`, preceded by an extra newline when non-whitespace text
precedes the marker on the line. -/
def mathWrapText (d : Delims) (orig : Str) (w : Wrapper) (latex : Str) : Str :=
  if w.type = WType.inline then d.inl.openD ++ latex ++ d.inl.closeD
  else
    let displayBlock := d.disp.openD ++ ['\n'] ++ latex ++ ['\n'] ++ d.disp.closeD ++ ['\n']
    let pre := orig.take w.start
    (if jsTrim pre ≠ [] then ['\n'] else []) ++ displayBlock

/-- The math-wrapper replacement loop of extension.js lines 107-132: the
wrapper at position `idx` reads `latexList[idx] || ''`, trims it, contributes
no entry when the result is blank, and otherwise one entry covering its span. -/
def buildMathReplacements (d : Delims) (orig : Str) : List Wrapper → List Str → List Entry
  | [], _ => []
  | w :: ws, lat =>
    let latex := jsTrim (lat.headD [])
    (if latex = [] then [] else [⟨w.start, w.endIdx, mathWrapText d orig w latex⟩])
      ++ buildMathReplacements d orig ws (lat.drop 1)

/-- The free-form wrapper loop of extension.js lines 136-167: a blank trimmed
payload is skipped before any generation call; a generation failure (`none`)
is skipped; a blank trimmed generation result is skipped; otherwise the
trimmed result is the entry for the wrapper's span. -/
def buildAnythingReplacements : List Wrapper → (Str → Option Str) → List Entry
  | [], _ => []
  | w :: ws, anyGen =>
    let instruction := jsTrim w.inner
    (if instruction = [] then []
     else
       match anyGen instruction with
       | none => []
       | some g => if jsTrim g = [] then [] else [⟨w.start, w.endIdx, jsTrim g⟩])
      ++ buildAnythingReplacements ws anyGen

/-- The instructions actually sent to `generateAnythingFromInstruction`, in
order: one call per free-form wrapper whose trimmed payload is non-blank
(extension.js lines 137-148 `continue`s before calling on a blank payload). -/
def anythingCallsMade : List Wrapper → List Str
  | [] => []
  | w :: ws =>
    let instruction := jsTrim w.inner
    (if instruction = [] then [] else [instruction]) ++ anythingCallsMade ws

/-- `mathWrappers.map((w) => (w.inner || '').trim())` of extension.js line 92:
the batched request items, one per math wrapper, blank payloads included. -/
def mathDescriptions (mws : List Wrapper) : List Str := mws.map (fun w => jsTrim w.inner)

/-- The replacement plan built by `processLineForWrappers` (extension.js lines
82-167).  `mathRes` is the outcome of the one batched `generateLatexForBatch`
call (`none` when it throws, in which case `latexList = []`); `anyGen` maps a
free-form instruction to the outcome of its own `generateAnythingFromInstruction`
call (`none` when that call throws). -/
def processReplacements (d : Delims) (orig : Str) (ws : List Wrapper)
    (mathRes : Option (List Str)) (anyGen : Str → Option Str) : List Entry :=
  let mws := ws.filter (fun w => w.type == WType.inline || w.type == WType.display)
  let aws := ws.filter (fun w => w.type == WType.anything)
  let mathEntries :=
    if mws.isEmpty then [] else buildMathReplacements d orig mws (mathRes.getD [])
  mathEntries ++ buildAnythingReplacements aws anyGen

/-- The final text of the processed line: wrappers are scanned, the replacement
plan is built, sorted by descending start, and applied right to left
(extension.js lines 169-198, with `keepOriginalComment` off). -/
def processLineFinalText (d : Delims) (line languageId : Str)
    (mathRes : Option (List Str)) (anyGen : Str → Option Str) : Str :=
  let ws := findWrappersInLine line languageId
  applyDescList line (sortDesc (processReplacements d line ws mathRes anyGen))

end LazyLatex

namespace LazyLatex

/-! ## Basic lemmas about the demultiplexer -/

theorem jsTrim_nil : jsTrim [] = [] := rfl

theorem splitLines_ne_nil (s : Str) : splitLines s ≠ [] := by
  match s with
  | [] => simp [splitLines]
  | [c] =>
    simp only [splitLines]
    split <;> simp
  | c :: c' :: cs =>
    simp only [splitLines]
    split
    · simp
    · split
      · simp
      · split <;> simp

theorem splitLines_noBreak (l : Str) (h : ∀ c ∈ l, c ≠ '\n' ∧ c ≠ '\r') :
    splitLines l = [l] := by
  induction l with
  | nil => rfl
  | cons c cs ih =>
    have hc := h c (by simp)
    cases cs with
    | nil => simp [splitLines, hc.1]
    | cons c' cs' =>
      have hrec := ih (fun x hx => h x (by simp [hx]))
      simp only [splitLines]
      rw [if_neg hc.1, if_neg (fun hh => hc.2 hh.1), hrec]

theorem splitLines_append_nl (l r : Str) (h : ∀ c ∈ l, c ≠ '\n' ∧ c ≠ '\r') :
    splitLines (l ++ '\n' :: r) = l :: splitLines r := by
  induction l with
  | nil =>
    cases r with
    | nil => simp [splitLines]
    | cons a as => simp [splitLines]
  | cons c cs ih =>
    have hc := h c (by simp)
    have hrec := ih (fun x hx => h x (by simp [hx]))
    cases cs with
    | nil =>
      simp only [List.nil_append] at hrec
      simp only [List.cons_append, List.nil_append, splitLines]
      rw [if_neg hc.1, if_neg (fun hh => hc.2 hh.1), hrec]
    | cons c' cs' =>
      simp only [List.cons_append] at hrec ⊢
      simp only [splitLines]
      rw [if_neg hc.1, if_neg (fun hh => hc.2 hh.1), hrec]

theorem joinLines_cons_cons (a b : Str) (t : List Str) :
    joinLines (a :: b :: t) = a ++ '\n' :: joinLines (b :: t) := by
  simp [joinLines, List.intercalate, List.intersperse]

theorem nonBlankLines_join (ls : List Str) (h : ∀ l ∈ ls, ∀ c ∈ l, c ≠ '\n' ∧ c ≠ '\r') :
    nonBlankLines (joinLines ls) = (ls.map jsTrim).filter (fun l => l ≠ []) := by
  induction ls with
  | nil => rfl
  | cons l ls ih =>
    cases ls with
    | nil =>
      show nonBlankLines (joinLines [l]) = _
      have hj : joinLines [l] = l := by simp [joinLines, List.intercalate, List.intersperse]
      rw [hj]
      unfold nonBlankLines
      rw [splitLines_noBreak l (h l (by simp))]
    | cons l₂ ls₂ =>
      rw [joinLines_cons_cons]
      unfold nonBlankLines
      rw [splitLines_append_nl l _ (h l (by simp))]
      have ih2 := ih (fun x hx => h x (by simp [hx]))
      unfold nonBlankLines at ih2
      simp only [List.map_cons, List.filter_cons, ih2]

/-- (C3) For every response string and expected count `n`, the demultiplexing
step of the batched LLM response returns exactly `n` strings; the response is
split on line breaks, trimmed, blank lines dropped, and the first `n`
surviving lines taken positionally; missing slots are empty strings, and a
blank line inserted anywhere in the response never shifts the mapping of the
other lines. -/
theorem demultiplex_length_pad_blank_insensitive :
    (∀ (r : Str) (n : Nat), (demultiplex r n).length = n)
    ∧ (∀ (r : Str) (n i : Nat), (nonBlankLines r).length ≤ i → i < n →
        (demultiplex r n).getD i (chars "?") = [])
    ∧ (∀ (pre post : List Str) (blank : Str) (n : Nat),
        (∀ l ∈ pre ++ blank :: post, ∀ c ∈ l, c ≠ '\n' ∧ c ≠ '\r') →
        jsTrim blank = [] →
        demultiplex (joinLines (pre ++ blank :: post)) n
          = demultiplex (joinLines (pre ++ post)) n) := by
  refine ⟨?_, ?_, ?_⟩
  · intro r n
    simp [demultiplex]
  · intro r n i hlen hi
    unfold demultiplex
    rw [List.getD_eq_getElem?_getD]
    rw [List.getElem?_map]
    simp only [List.getElem?_range hi, Option.map_some', Option.getD_some]
    exact List.getD_eq_default _ _ hlen
  · intro pre post blank n hnb hblank
    unfold demultiplex
    have h1 : ∀ l ∈ pre ++ post, ∀ c ∈ l, c ≠ '\n' ∧ c ≠ '\r' := by
      intro l hl
      rcases List.mem_append.mp hl with h | h
      · exact hnb l (List.mem_append.mpr (Or.inl h))
      · exact hnb l (by simp [h])
    rw [nonBlankLines_join _ hnb, nonBlankLines_join _ h1]
    simp [List.filter_append, hblank]

/-- Closed instance of the demultiplexer claim: a response of two usable lines
demultiplexed into three slots, with a stray blank line inserted, pads with an
empty string and keeps the mapping. -/
theorem demultiplex_claim_witness :
    ((nonBlankLines (chars "a\nb") |>.length) ≤ 2 ∧ jsTrim (chars "  ") = [])
    ∧ (demultiplex (chars "a\nb") 3).length = 3
    ∧ (demultiplex (chars "a\nb") 3).getD 2 (chars "?") = []
    ∧ demultiplex (joinLines [chars "a", chars "  ", chars "b"]) 3
        = demultiplex (joinLines [chars "a", chars "b"]) 3 :=
  ⟨by decide,
   demultiplex_length_pad_blank_insensitive.1 (chars "a\nb") 3,
   demultiplex_length_pad_blank_insensitive.2.1 (chars "a\nb") 3 2 (by decide) (by decide),
   demultiplex_length_pad_blank_insensitive.2.2 [chars "a"] [chars "b"] (chars "  ") 3
     (by decide) (by decide)⟩

/-! ## Comment-only lines (C5) -/

/-- (C5) A line whose trimmed form is a comment-only line for its document kind
(`%`-led for LaTeX, `<!-- ... -->` for Markdown) yields no markers at all,
whatever delimiter runs it contains. -/
theorem comment_only_lines_yield_no_markers :
    (∀ line : Str, leadsWith (jsTrim line) (chars "%") = true →
      findWrappersInLine line (chars "latex") = [])
    ∧ (∀ line : Str, leadsWith (jsTrim line) (chars "<!--") = true →
      trailsWith (jsTrim line) (chars "-->") = true →
      findWrappersInLine line (chars "markdown") = []) := by
  constructor
  · intro line h
    unfold findWrappersInLine
    rw [if_pos]
    unfold commentExcluded
    simp only [h]
    rw [show (chars "latex" == chars "latex") = true from by decide]
    simp
  · intro line h h'
    unfold findWrappersInLine
    rw [if_pos]
    unfold commentExcluded
    simp only [h, h']
    rw [show (chars "markdown" == chars "latex") = false from by decide,
        show (chars "markdown" == chars "markdown") = true from by decide]
    simp

/-- Closed instance of C5: comment-only lines containing delimiter runs are
ignored for both document kinds. -/
theorem comment_only_claim_witness :
    (leadsWith (jsTrim (chars "  % use ;;x;; here")) (chars "%") = true
      ∧ findWrappersInLine (chars "  % use ;;x;; here") (chars "latex") = [])
    ∧ (leadsWith (jsTrim (chars " <!-- ;;y;; -->")) (chars "<!--") = true
      ∧ findWrappersInLine (chars " <!-- ;;y;; -->") (chars "markdown") = []) :=
  ⟨⟨by decide, comment_only_lines_yield_no_markers.1 _ (by decide)⟩,
   ⟨by decide, comment_only_lines_yield_no_markers.2 _ (by decide) (by decide)⟩⟩

/-! ## Context assembler (C7) -/

theorem range_map_getD (l : List Str) (n : Nat) (h : n ≤ l.length) :
    (List.range n).map (fun k => l.getD k []) = l.take n := by
  induction n with
  | zero => simp
  | succ m ih =>
    rw [List.range_succ, List.map_append, ih (Nat.le_of_succ_le h)]
    have hm : m < l.length := h
    rw [List.take_succ]
    simp [List.getD_eq_getElem?_getD, List.getElem?_eq_getElem hm]

/-- (C7) The context assembler returns the empty string whenever the configured
preceding-line count is zero or negative, and returns all preceding lines
joined in document order whenever the count is at least the number of
preceding lines. -/
theorem context_window_zero_and_full :
    (∀ (doc : List Str) (n : Nat) (cl : Int), cl ≤ 0 →
      getContextBeforeLine doc n cl = [])
    ∧ (∀ (doc : List Str) (n : Nat) (cl : Int), (n : Int) ≤ cl → n ≤ doc.length →
      getContextBeforeLine doc n cl = joinLines (doc.take n)) := by
  constructor
  · intro doc n cl h
    simp [getContextBeforeLine, h]
  · intro doc n cl hcl hlen
    by_cases h0 : cl ≤ 0
    · have hn : n = 0 := by omega
      subst hn
      simp [getContextBeforeLine, h0, joinLines, List.intercalate]
    · have hstart : max 0 ((n : Int) - cl) = 0 := max_eq_left (by omega)
      rw [getContextBeforeLine, if_neg h0]
      simp only [hstart]
      by_cases hn0 : n = 0
      · subst hn0
        rw [if_pos (by norm_num)]
        simp [joinLines, List.intercalate]
      · rw [if_neg (by omega)]
        have ht : ((n : Int) - 1).toNat = n - 1 := by omega
        have ht0 : (0 : Int).toNat = 0 := rfl
        rw [ht, ht0]
        have hn1 : n - 1 + 1 - 0 = n := by omega
        rw [hn1]
        simp only [Nat.zero_add]
        rw [range_map_getD doc n hlen]

/-- Closed instance of C7 at a three-line document. -/
theorem context_window_claim_witness :
    getContextBeforeLine [chars "a", chars "b", chars "c"] 2 (-1) = []
    ∧ getContextBeforeLine [chars "a", chars "b", chars "c"] 2 50
        = joinLines [chars "a", chars "b"] :=
  ⟨context_window_zero_and_full.1 _ 2 (-1) (by norm_num),
   by
    have := context_window_zero_and_full.2 [chars "a", chars "b", chars "c"] 2 50
      (by norm_num) (by norm_num)
    simpa using this⟩

/-! ## Replacement algebra (C4) -/

theorem slice_take (s : Str) (p q : Nat) : sliceStr s p q = (s.take q).drop p := by
  rw [sliceStr, List.drop_take]

theorem slice_congr_take {u v : Str} {K p q : Nat} (h : u.take K = v.take K) (hq : q ≤ K) :
    sliceStr u p q = sliceStr v p q := by
  rw [slice_take, slice_take]
  have hu : u.take q = (u.take K).take q := by rw [List.take_take, min_eq_left hq]
  have hv : v.take q = (v.take K).take q := by rw [List.take_take, min_eq_left hq]
  rw [hu, hv, h]

theorem replaceSpan_take_left (s : Str) (a b : Nat) (t : Str) (h : a ≤ s.length) :
    (replaceSpan s a b t).take a = s.take a := by
  rw [replaceSpan, List.append_assoc]
  rw [List.take_append_of_le_length (by simp [h])]
  rw [List.take_take, min_self]

theorem replaceSpan_length_ge (s : Str) (a b : Nat) (t : Str) (h : a ≤ s.length) :
    a ≤ (replaceSpan s a b t).length := by
  simp [replaceSpan]
  omega

theorem spliceAll_replace_last (s : Str) (ls le : Nat) (t : Str) (hls : ls ≤ s.length) :
    ∀ (es : List Entry) (p : Nat), p ≤ ls → (∀ e ∈ es, e.start ≤ ls ∧ e.endIdx ≤ ls) →
    spliceAll (replaceSpan s ls le t) p es = spliceAll s p (es ++ [⟨ls, le, t⟩]) := by
  intro es
  induction es with
  | nil =>
    intro p hp _
    simp only [spliceAll, List.nil_append]
    rw [replaceSpan, List.append_assoc, List.drop_append_eq_append_drop]
    have hl : (s.take ls).length = ls := by simp [hls]
    rw [hl, Nat.sub_eq_zero_of_le hp, List.drop_zero]
    rw [slice_take]
    simp [List.append_assoc]
  | cons e es ih =>
    intro p hp hes
    have he := hes e (List.mem_cons_self e es)
    simp only [spliceAll, List.cons_append]
    have h1 : sliceStr (replaceSpan s ls le t) p e.start = sliceStr s p e.start :=
      slice_congr_take (replaceSpan_take_left s ls le t hls) he.1
    rw [h1, ih e.endIdx he.2 (fun x hx => hes x (List.mem_cons_of_mem e hx))]
    rfl

/-- (C4) Applying a set of non-overlapping replacement entries in strictly
descending order of start offset — each against the string produced so far —
equals substituting every span independently, because replacing one span never
invalidates the stored offsets of a not-yet-applied span to its left. -/
theorem applying_right_to_left_equals_independent_substitution
    (s : Str) (es : List Entry)
    (hchain : List.Pairwise (fun a b => a.endIdx ≤ b.start) es)
    (hse : ∀ e ∈ es, e.start ≤ e.endIdx)
    (hlen : ∀ e ∈ es, e.endIdx ≤ s.length) :
    applyDescList s es.reverse = spliceAll s 0 es := by
  induction es using List.reverseRecOn generalizing s with
  | nil => simp [applyDescList, spliceAll]
  | append_singleton init last ih =>
    have hpa := List.pairwise_append.mp hchain
    have hinit_last : ∀ e ∈ init, e.endIdx ≤ last.start := by
      intro e hemem
      exact hpa.2.2 e hemem last (by simp)
    have hlast : last.endIdx ≤ s.length := hlen last (by simp)
    have hlast_start : last.start ≤ s.length :=
      le_trans (hse last (by simp)) hlast
    rw [List.reverse_append]
    simp only [List.reverse_singleton, List.singleton_append]
    show applyDescList (replaceSpan s last.start last.endIdx last.text) init.reverse = _
    rw [ih (replaceSpan s last.start last.endIdx last.text) hpa.1
        (fun e he => hse e (by simp [he]))
        (fun e he => le_trans (hinit_last e he)
          (replaceSpan_length_ge s last.start last.endIdx last.text hlast_start))]
    exact spliceAll_replace_last s last.start last.endIdx last.text hlast_start init 0
      (Nat.zero_le _)
      (fun e he => ⟨le_trans (hse e (by simp [he])) (hinit_last e he), hinit_last e he⟩)

/-- Closed instance of C4 on the line `;;a;; and ;;;b;;;` with replacements
`A` (inline marker) and `B` (block marker): the scanner reports both markers in
order with the right categories, and the right-to-left application equals the
independent substitution, producing `A and B`. -/
theorem right_to_left_claim_witness :
    findWrappersInLine (chars ";;a;; and ;;;b;;;") (chars "latex")
        = [⟨WType.inline, chars "a", 0, 5⟩, ⟨WType.display, chars "b", 10, 17⟩]
    ∧ applyDescList (chars ";;a;; and ;;;b;;;")
        ([⟨0, 5, chars "A"⟩, ⟨10, 17, chars "B"⟩] : List Entry).reverse
        = spliceAll (chars ";;a;; and ;;;b;;;") 0 [⟨0, 5, chars "A"⟩, ⟨10, 17, chars "B"⟩]
    ∧ spliceAll (chars ";;a;; and ;;;b;;;") 0 [⟨0, 5, chars "A"⟩, ⟨10, 17, chars "B"⟩]
        = chars "A and B" :=
  ⟨by decide,
   applying_right_to_left_equals_independent_substitution _ _ (by decide) (by decide) (by decide),
   by decide⟩

/-! ## Failure isolation and blank payloads (C9, C10) -/

theorem buildMath_lat_nil (d : Delims) (o : Str) : ∀ mws : List Wrapper,
    buildMathReplacements d o mws [] = [] := by
  intro mws
  induction mws with
  | nil => rfl
  | cons w ws ih => simp [buildMathReplacements, jsTrim_nil, ih]

theorem buildAnything_append (g : Str → Option Str) (l₁ l₂ : List Wrapper) :
    buildAnythingReplacements (l₁ ++ l₂) g
      = buildAnythingReplacements l₁ g ++ buildAnythingReplacements l₂ g := by
  induction l₁ with
  | nil => rfl
  | cons w ws ih => simp [buildAnythingReplacements, ih]

theorem anythingCallsMade_append (l₁ l₂ : List Wrapper) :
    anythingCallsMade (l₁ ++ l₂) = anythingCallsMade l₁ ++ anythingCallsMade l₂ := by
  induction l₁ with
  | nil => rfl
  | cons w ws ih => simp [anythingCallsMade, ih]

theorem headD_drop (l : List Str) (k : Nat) : (l.drop k).headD [] = l.getD k [] := by
  induction k generalizing l with
  | zero => cases l <;> rfl
  | succ m ih =>
    cases l with
    | nil => rfl
    | cons x xs =>
      rw [List.drop_succ_cons, List.getD_cons_succ]
      exact ih xs

theorem buildMath_append (d : Delims) (o : Str) (l₁ l₂ : List Wrapper) :
    ∀ lat, buildMathReplacements d o (l₁ ++ l₂) lat
      = buildMathReplacements d o l₁ lat
        ++ buildMathReplacements d o l₂ (lat.drop l₁.length) := by
  induction l₁ with
  | nil => intro lat; simp [buildMathReplacements]
  | cons w ws ih =>
    intro lat
    simp only [List.cons_append, buildMathReplacements, List.append_eq]
    rw [ih (lat.drop 1), List.drop_drop, List.append_assoc]
    simp [Nat.add_comm]

/-- (C9) Failures are isolated per unit of work: when the batched math
generation call throws (`mathRes = none`), no math marker of the line receives
a replacement entry but the free-form markers are still processed exactly as
they otherwise would be; when the generation call of a single free-form marker
throws, only that marker is skipped and the entries of the surrounding markers
are unchanged. -/
theorem failures_isolated_per_unit :
    (∀ (d : Delims) (o : Str) (ws : List Wrapper) (anyGen : Str → Option Str),
      processReplacements d o ws none anyGen
        = buildAnythingReplacements (ws.filter (fun w => w.type == WType.anything)) anyGen)
    ∧ (∀ (l₁ l₂ : List Wrapper) (w : Wrapper) (anyGen : Str → Option Str),
      anyGen (jsTrim w.inner) = none →
      buildAnythingReplacements (l₁ ++ w :: l₂) anyGen
        = buildAnythingReplacements l₁ anyGen ++ buildAnythingReplacements l₂ anyGen) := by
  constructor
  · intro d o ws anyGen
    unfold processReplacements
    simp only [Option.getD_none, buildMath_lat_nil, ite_self, List.nil_append]
  · intro l₁ l₂ w anyGen h
    have hw : buildAnythingReplacements [w] anyGen = [] := by
      by_cases hi : jsTrim w.inner = []
      · simp [buildAnythingReplacements, hi]
      · simp [buildAnythingReplacements, hi, h]
    rw [show l₁ ++ w :: l₂ = (l₁ ++ [w]) ++ l₂ by simp, buildAnything_append,
      buildAnything_append, hw]
    simp

/-- Closed instance of C9: with the batched math call failing, the inline
marker of `;;x;; ;;;;y;;;;` gets no replacement while the free-form marker
still succeeds; and a failing free-form call skips only its own marker. -/
theorem failures_isolated_witness :
    processReplacements ⟨⟨chars "$", chars "$"⟩, ⟨chars "$$", chars "$$"⟩⟩
        (chars ";;x;; ;;;;y;;;;")
        (findWrappersInLine (chars ";;x;; ;;;;y;;;;") (chars "latex")) none
        (fun s => if s = chars "y" then some (chars " OUT ") else none)
      = [⟨6, 15, chars "OUT"⟩]
    ∧ buildAnythingReplacements
        ([⟨WType.anything, chars "p", 0, 9⟩] ++ (⟨WType.anything, chars "q", 10, 19⟩ : Wrapper) :: [])
        (fun s => if s = chars "p" then some (chars "P") else none)
      = buildAnythingReplacements [⟨WType.anything, chars "p", 0, 9⟩]
          (fun s => if s = chars "p" then some (chars "P") else none)
        ++ buildAnythingReplacements []
          (fun s => if s = chars "p" then some (chars "P") else none) :=
  ⟨(failures_isolated_per_unit.1 _ _ _ _).trans (by decide),
   failures_isolated_per_unit.2 _ _ _ _ (by decide)⟩

/-- (C10) Asymmetry at the generation interface: a math marker whose payload
trims to blank still contributes one item to the batched request and still
consumes its positional slot of the demultiplexed response — the markers after
it keep their own shifted slots, and its own blank slot yields no replacement —
whereas a free-form marker whose payload trims to blank triggers no generation
call at all and contributes no replacement entry. -/
theorem blank_payload_slot_asymmetry :
    (∀ (m₁ m₂ : List Wrapper) (w : Wrapper), jsTrim w.inner = [] →
      mathDescriptions (m₁ ++ w :: m₂) = mathDescriptions m₁ ++ [[]] ++ mathDescriptions m₂)
    ∧ (∀ (d : Delims) (o : Str) (m₁ m₂ : List Wrapper) (w : Wrapper) (lat : List Str),
      jsTrim (lat.getD m₁.length []) = [] →
      buildMathReplacements d o (m₁ ++ w :: m₂) lat
        = buildMathReplacements d o m₁ lat
          ++ buildMathReplacements d o m₂ (lat.drop (m₁.length + 1)))
    ∧ (∀ (a₁ a₂ : List Wrapper) (w : Wrapper) (g : Str → Option Str), jsTrim w.inner = [] →
      anythingCallsMade (a₁ ++ w :: a₂) = anythingCallsMade a₁ ++ anythingCallsMade a₂
      ∧ buildAnythingReplacements (a₁ ++ w :: a₂) g
          = buildAnythingReplacements a₁ g ++ buildAnythingReplacements a₂ g) := by
  refine ⟨?_, ?_, ?_⟩
  · intro m₁ m₂ w h
    simp [mathDescriptions, h]
  · intro d o m₁ m₂ w lat h
    rw [buildMath_append]
    have hmid : buildMathReplacements d o (w :: m₂) (lat.drop m₁.length)
        = buildMathReplacements d o m₂ (lat.drop (m₁.length + 1)) := by
      rw [show buildMathReplacements d o (w :: m₂) (lat.drop m₁.length)
          = (if jsTrim ((lat.drop m₁.length).headD []) = [] then []
             else [⟨w.start, w.endIdx, mathWrapText d o w (jsTrim ((lat.drop m₁.length).headD []))⟩])
            ++ buildMathReplacements d o m₂ ((lat.drop m₁.length).drop 1) from rfl]
      rw [headD_drop, if_pos h, List.drop_drop]
      simp
    rw [hmid]
  · intro a₁ a₂ w g h
    constructor
    · have hw : anythingCallsMade [w] = [] := by simp [anythingCallsMade, h]
      rw [show a₁ ++ w :: a₂ = (a₁ ++ [w]) ++ a₂ by simp, anythingCallsMade_append,
        anythingCallsMade_append, hw]
      simp
    · have hw : buildAnythingReplacements [w] g = [] := by
        simp [buildAnythingReplacements, h]
      rw [show a₁ ++ w :: a₂ = (a₁ ++ [w]) ++ a₂ by simp, buildAnything_append,
        buildAnything_append, hw]
      simp

/-- Closed instance of C10: a blank inline marker between two markers still
reserves batch slot 1 (slot 2 maps to the marker after it), while a blank
free-form marker triggers no call and no entry. -/
theorem blank_payload_claim_witness :
    (jsTrim (chars "  ") = []
      ∧ mathDescriptions
          ([⟨WType.inline, chars "a", 0, 5⟩] ++ (⟨WType.inline, chars "  ", 6, 12⟩ : Wrapper)
            :: [⟨WType.inline, chars "b", 13, 18⟩])
        = mathDescriptions [⟨WType.inline, chars "a", 0, 5⟩] ++ [[]]
            ++ mathDescriptions [⟨WType.inline, chars "b", 13, 18⟩])
    ∧ anythingCallsMade
        ([] ++ (⟨WType.anything, chars " ", 0, 9⟩ : Wrapper) :: [⟨WType.anything, chars "z", 10, 19⟩])
        = anythingCallsMade ([] : List Wrapper)
          ++ anythingCallsMade [⟨WType.anything, chars "z", 10, 19⟩] :=
  ⟨⟨by decide, blank_payload_slot_asymmetry.1 _ _ _ (by decide)⟩,
   (blank_payload_slot_asymmetry.2.2 [] [⟨WType.anything, chars "z", 10, 19⟩]
     ⟨WType.anything, chars " ", 0, 9⟩ (fun _ => none) (by decide)).1⟩

/-! ## Character-index bookkeeping -/

theorem getD_drop (s : Str) (n k : Nat) (d : Char) :
    (s.drop n).getD k d = s.getD (n + k) d := by
  simp [List.getD_eq_getElem?_getD, List.getElem?_drop]

theorem getD_append_left (A B : Str) (k : Nat) (d : Char) (h : k < A.length) :
    (A ++ B).getD k d = A.getD k d := by
  simp [List.getD_eq_getElem?_getD, List.getElem?_append_left h]

theorem getD_append_right (A B : Str) (k : Nat) (d : Char) (h : A.length ≤ k) :
    (A ++ B).getD k d = B.getD (k - A.length) d := by
  simp [List.getD_eq_getElem?_getD, List.getElem?_append_right h]

theorem getD_of_take_eq {u v : Str} {K : Nat} (h : u.take K = v.take K) {k : Nat} (hk : k < K)
    (d : Char) : u.getD k d = v.getD k d := by
  have hu : u.getD k d = (u.take K).getD k d := by
    simp [List.getD_eq_getElem?_getD, List.getElem?_take_of_lt hk]
  have hv : v.getD k d = (v.take K).getD k d := by
    simp [List.getD_eq_getElem?_getD, List.getElem?_take_of_lt hk]
  rw [hu, hv, h]

/-! ## Runs of semicolons -/

theorem countRun_le_length (s : Str) : countRun s ≤ s.length := by
  induction s with
  | nil => simp [countRun]
  | cons c cs ih =>
    simp only [countRun, List.length_cons]
    split
    · omega
    · omega

theorem countRun_cons_semi (cs : Str) : countRun (';' :: cs) = countRun cs + 1 := by
  simp [countRun]

theorem countRun_cons_ne {c : Char} (cs : Str) (h : c ≠ ';') : countRun (c :: cs) = 0 := by
  simp [countRun, h]

theorem dropSemis_eq_drop (s : Str) : dropSemis s = s.drop (countRun s) := by
  induction s with
  | nil => rfl
  | cons c cs ih =>
    simp only [dropSemis, countRun]
    split
    · rw [ih, List.drop_succ_cons]
    · simp

theorem countRun_getD (s : Str) : ∀ k, k < countRun s → s.getD k 'x' = ';' := by
  induction s with
  | nil => intro k hk; simp [countRun] at hk
  | cons c cs ih =>
    intro k hk
    simp only [countRun] at hk
    by_cases hc : c = ';'
    · rw [if_pos hc] at hk
      cases k with
      | zero => simpa using hc
      | succ m =>
        rw [List.getD_cons_succ]
        exact ih m (by omega)
    · rw [if_neg hc] at hk
      omega

theorem countRun_boundary (s : Str) (h : countRun s < s.length) :
    s.getD (countRun s) 'x' ≠ ';' := by
  induction s with
  | nil => simp at h
  | cons c cs ih =>
    by_cases hc : c = ';'
    · subst hc
      rw [countRun_cons_semi] at h ⊢
      rw [List.getD_cons_succ]
      exact ih (by simpa using h)
    · rw [countRun_cons_ne cs hc] at h ⊢
      simpa using hc

theorem countRun_eq_of_spec (s : Str) : ∀ r, r ≤ s.length → (∀ k, k < r → s.getD k 'x' = ';') →
    (r = s.length ∨ s.getD r 'x' ≠ ';') → countRun s = r := by
  induction s with
  | nil =>
    intro r h1 _ _
    simp only [List.length_nil, Nat.le_zero] at h1
    simp [countRun, h1]
  | cons c cs ih =>
    intro r h1 h2 h3
    cases r with
    | zero =>
      apply countRun_cons_ne
      rcases h3 with h | h
      · simp at h
      · simpa using h
    | succ m =>
      have hc : c = ';' := by simpa using h2 0 (by omega)
      subst hc
      rw [countRun_cons_semi]
      congr 1
      refine ih m (by simpa using h1) (fun k hk => by simpa using h2 (k + 1) (by omega)) ?_
      rcases h3 with h | h
      · left
        simpa using h
      · right
        simpa using h

theorem countRun_zero_of_head (s : Str) (h : s = [] ∨ s.getD 0 'x' ≠ ';') : countRun s = 0 := by
  rcases h with h | h
  · simp [h, countRun]
  · cases s with
    | nil => rfl
    | cons c cs => exact countRun_cons_ne cs (by simpa using h)

theorem countRun_dropSemis (s : Str) : countRun (dropSemis s) = 0 := by
  induction s with
  | nil => rfl
  | cons c cs ih =>
    simp only [dropSemis]
    split
    · exact ih
    · next h => exact countRun_cons_ne cs h

/-! ## Maximal-run predicate lemmas -/

theorem isRunAt_zero_of_countRun {s : Str} (h : 0 < countRun s) :
    isRunAt s 0 (countRun s) := by
  refine ⟨h, by simpa using countRun_le_length s, ?_, Or.inl rfl, ?_⟩
  · intro k hk
    rw [Nat.zero_add]
    exact countRun_getD s k hk
  · rw [Nat.zero_add]
    rcases Nat.lt_or_ge (countRun s) s.length with hlt | hge
    · exact Or.inr (countRun_boundary s hlt)
    · exact Or.inl (le_antisymm (countRun_le_length s) hge)

theorem isRunAt_zero_countRun {s : Str} {l : Nat} (h : isRunAt s 0 l) : countRun s = l := by
  obtain ⟨hl, hlen, hchars, _, hright⟩ := h
  refine countRun_eq_of_spec s l (by simpa using hlen) (fun k hk => by simpa using hchars k hk) ?_
  rcases hright with h | h
  · left
    simpa using h
  · right
    simpa using h

theorem not_isRunAt_zero {s : Str} (h : countRun s = 0) (l : Nat) : ¬ isRunAt s 0 l :=
  fun hr => by
    have := isRunAt_zero_countRun hr
    have := hr.1
    omega

theorem isRunAt_pos_gt {s : Str} {q l : Nat} (h : isRunAt s q l) (hq : 0 < q) :
    countRun s < q := by
  by_contra hc
  push_neg at hc
  have hch := countRun_getD s (q - 1) (by omega)
  rcases h.2.2.2.1 with h0 | hne
  · omega
  · exact hne hch

theorem countRun_drop_of_isRunAt {s : Str} {p l : Nat} (h : isRunAt s p l) :
    countRun (s.drop p) = l := by
  obtain ⟨hl, hlen, hchars, _, hright⟩ := h
  apply countRun_eq_of_spec
  · rw [List.length_drop]
    omega
  · intro k hk
    rw [getD_drop]
    exact hchars k hk
  · rcases hright with h | h
    · left
      rw [List.length_drop]
      omega
    · right
      rw [getD_drop]
      exact h

theorem isRunAt_drop_zero_of {s : Str} {p l : Nat} (h : isRunAt s p l) :
    isRunAt (s.drop p) 0 l := by
  obtain ⟨hl, hlen, hchars, _, hright⟩ := h
  refine ⟨hl, by rw [List.length_drop]; omega, ?_, Or.inl rfl, ?_⟩
  · intro k hk
    rw [Nat.zero_add, getD_drop]
    exact hchars k hk
  · rcases hright with h | h
    · left
      rw [Nat.zero_add, List.length_drop]
      omega
    · right
      rw [Nat.zero_add, getD_drop]
      exact h

theorem isRunAt_of_drop_zero {s : Str} {i l : Nat} (hi : i ≤ s.length)
    (h : isRunAt (s.drop i) 0 l) (hleft : i = 0 ∨ s.getD (i - 1) 'x' ≠ ';') :
    isRunAt s i l := by
  obtain ⟨hl, hlen, hchars, _, hright⟩ := h
  rw [List.length_drop] at hlen
  refine ⟨hl, by omega, ?_, hleft, ?_⟩
  · intro k hk
    have := hchars k hk
    rw [Nat.zero_add, getD_drop] at this
    exact this
  · rcases hright with h | h
    · rw [Nat.zero_add, List.length_drop] at h
      left
      omega
    · rw [Nat.zero_add, getD_drop] at h
      right
      exact h

theorem isRunAt_drop {s : Str} {r q l : Nat} (hr : r ≤ s.length) (hq : 1 ≤ q) :
    isRunAt (s.drop r) q l ↔ isRunAt s (r + q) l := by
  unfold isRunAt
  rw [List.length_drop]
  constructor
  · rintro ⟨h1, h2, h3, h4, h5⟩
    refine ⟨h1, by omega, ?_, ?_, ?_⟩
    · intro k hk
      have := h3 k hk
      rw [getD_drop, show r + (q + k) = r + q + k by omega] at this
      exact this
    · rcases h4 with h | h
      · omega
      · rw [getD_drop, show r + (q - 1) = r + q - 1 by omega] at h
        exact Or.inr h
    · rcases h5 with h | h
      · left
        omega
      · rw [getD_drop, show r + (q + l) = r + q + l by omega] at h
        exact Or.inr h
  · rintro ⟨h1, h2, h3, h4, h5⟩
    refine ⟨h1, by omega, ?_, ?_, ?_⟩
    · intro k hk
      rw [getD_drop, show r + (q + k) = r + q + k by omega]
      exact h3 k hk
    · rcases h4 with h | h
      · omega
      · rw [getD_drop, show r + (q - 1) = r + q - 1 by omega]
        exact Or.inr h
    · rcases h5 with h | h
      · left
        omega
      · rw [getD_drop, show r + (q + l) = r + q + l by omega]
        exact Or.inr h

theorem isRunAt_overlap_eq {s : Str} {p₁ l₁ p₂ l₂ k : Nat}
    (h₁ : isRunAt s p₁ l₁) (h₂ : isRunAt s p₂ l₂)
    (hk₁ : p₁ ≤ k) (hk₁' : k < p₁ + l₁) (hk₂ : p₂ ≤ k) (hk₂' : k < p₂ + l₂) :
    p₁ = p₂ ∧ l₁ = l₂ := by
  have hstart : ∀ {pa la pb lb : Nat}, isRunAt s pa la → isRunAt s pb lb →
      pa ≤ k → k < pa + la → pb ≤ k → pa < pb → False := by
    intro pa la pb lb ha hb hka hka' hkb hab
    have hch := ha.2.2.1 (pb - 1 - pa) (by omega)
    rw [show pa + (pb - 1 - pa) = pb - 1 by omega] at hch
    rcases hb.2.2.2.1 with h0 | hne
    · omega
    · exact hne hch
  have hp : p₁ = p₂ := by
    rcases Nat.lt_trichotomy p₁ p₂ with h | h | h
    · exact absurd (hstart h₁ h₂ hk₁ hk₁' hk₂ h) id
    · exact h
    · exact absurd (hstart h₂ h₁ hk₂ hk₂' hk₁ h) id
  subst hp
  have hlen : ∀ {la lb : Nat}, isRunAt s p₁ la → isRunAt s p₁ lb → la < lb → False := by
    intro la lb ha hb hab
    have hch := hb.2.2.1 la hab
    rcases ha.2.2.2.2 with h0 | hne
    · have := hb.2.1
      omega
    · exact hne hch
  refine ⟨rfl, ?_⟩
  rcases Nat.lt_trichotomy l₁ l₂ with h | h | h
  · exact absurd (hlen h₁ h₂ h) id
  · exact h
  · exact absurd (hlen h₂ h₁ h) id

theorem isRunAt_take_agree {u v : Str} {K q l : Nat} (h : u.take K = v.take K)
    (hKu : K ≤ u.length) (hKv : K ≤ v.length) (hql : q + l < K) :
    isRunAt u q l ↔ isRunAt v q l := by
  have hg : ∀ k, k < K → u.getD k 'x' = v.getD k 'x' := fun k hk => getD_of_take_eq h hk 'x'
  unfold isRunAt
  constructor
  · rintro ⟨h1, _, h3, h4, h5⟩
    refine ⟨h1, by omega, ?_, ?_, ?_⟩
    · intro k hk
      rw [← hg (q + k) (by omega)]
      exact h3 k hk
    · rcases h4 with h | h
      · exact Or.inl h
      · rw [hg (q - 1) (by omega)] at h
        exact Or.inr h
    · right
      rcases h5 with h0 | hne
      · omega
      · rw [← hg (q + l) hql]
        exact hne
  · rintro ⟨h1, _, h3, h4, h5⟩
    refine ⟨h1, by omega, ?_, ?_, ?_⟩
    · intro k hk
      rw [hg (q + k) (by omega)]
      exact h3 k hk
    · rcases h4 with h | h
      · exact Or.inl h
      · rw [← hg (q - 1) (by omega)] at h
        exact Or.inr h
    · right
      rcases h5 with h0 | hne
      · omega
      · rw [hg (q + l) hql]
        exact hne

theorem isRunAt_append_right {A B : Str} {j l : Nat}
    (hA : A = [] ∨ A.getD (A.length - 1) 'x' ≠ ';') :
    isRunAt (A ++ B) (A.length + j) l ↔ isRunAt B j l := by
  by_cases hAnil : A = []
  · subst hAnil
    simp [Nat.zero_add]
  · have hlast : A.getD (A.length - 1) 'x' ≠ ';' := by
      rcases hA with h | h
      · exact absurd h hAnil
      · exact h
    have hApos := List.length_pos.mpr hAnil
    unfold isRunAt
    rw [List.length_append]
    constructor
    · rintro ⟨h1, h2, h3, h4, h5⟩
      refine ⟨h1, by omega, ?_, ?_, ?_⟩
      · intro k hk
        have := h3 k hk
        rw [show A.length + j + k = A.length + (j + k) by omega,
          getD_append_right _ _ _ _ (by omega), Nat.add_sub_cancel_left] at this
        exact this
      · cases j with
        | zero => exact Or.inl rfl
        | succ m =>
          rcases h4 with h | h
          · omega
          · rw [getD_append_right _ _ _ _ (by omega)] at h
            right
            rw [show A.length + (m + 1) - 1 - A.length = m + 1 - 1 by omega] at h
            exact h
      · rcases h5 with h | h
        · left
          omega
        · rw [show A.length + j + l = A.length + (j + l) by omega,
            getD_append_right _ _ _ _ (by omega), Nat.add_sub_cancel_left] at h
          exact Or.inr h
    · rintro ⟨h1, h2, h3, h4, h5⟩
      refine ⟨h1, by omega, ?_, ?_, ?_⟩
      · intro k hk
        rw [show A.length + j + k = A.length + (j + k) by omega,
          getD_append_right _ _ _ _ (by omega), Nat.add_sub_cancel_left]
        exact h3 k hk
      · cases j with
        | zero =>
          right
          rw [Nat.add_zero, getD_append_left _ _ _ _ (by omega)]
          exact hlast
        | succ m =>
          rcases h4 with h | h
          · omega
          · right
            rw [show A.length + (m + 1) - 1 = A.length + (m + 1 - 1) by omega,
              getD_append_right _ _ _ _ (by omega), Nat.add_sub_cancel_left]
            exact h
      · rcases h5 with h | h
        · left
          omega
        · rw [show A.length + j + l = A.length + (j + l) by omega,
            getD_append_right _ _ _ _ (by omega), Nat.add_sub_cancel_left]
          exact Or.inr h

theorem isRunAt_append_not_cross {A B : Str} {q l : Nat}
    (hA : A ≠ []) (hlast : A.getD (A.length - 1) 'x' ≠ ';')
    (h : isRunAt (A ++ B) q l) : q + l < A.length ∨ A.length ≤ q := by
  by_contra hc
  push_neg at hc
  have hApos := List.length_pos.mpr hA
  have hch := h.2.2.1 (A.length - 1 - q) (by omega)
  rw [show q + (A.length - 1 - q) = A.length - 1 by omega,
    getD_append_left _ _ _ _ (by omega)] at hch
  exact hlast hch

theorem isRunAt_append_left {A B : Str} {q l : Nat} (hql : q + l < A.length) :
    isRunAt (A ++ B) q l ↔ isRunAt A q l := by
  have h : (A ++ B).take A.length = A.take A.length :=
    List.take_append_of_le_length (le_refl _)
  exact isRunAt_take_agree h (by simp) (le_refl _) hql

/-! ## The closing-delimiter search, characterized by maximal runs -/

theorem dropSemis_length_le (s : Str) : (dropSemis s).length ≤ s.length := by
  rw [dropSemis_eq_drop, List.length_drop]
  omega

theorem dropSemis_length_semi {c : Char} (cs : Str) (h : c = ';') :
    (dropSemis (c :: cs)).length ≤ cs.length := by
  subst h
  rw [dropSemis_eq_drop, countRun_cons_semi, List.drop_succ_cons, List.length_drop]
  omega

theorem findCloserF_congr (count : Nat) : ∀ (f₁ f₂ : Nat) (s : Str) (off : Nat),
    s.length ≤ f₁ → s.length ≤ f₂ →
    findCloserF count f₁ s off = findCloserF count f₂ s off := by
  intro f₁
  induction f₁ with
  | zero =>
    intro f₂ s off h1 _
    have hnil : s = [] := List.length_eq_zero.mp (by omega)
    subst hnil
    cases f₂ <;> rfl
  | succ g ih =>
    intro f₂ s off h1 h2
    cases s with
    | nil => cases f₂ <;> rfl
    | cons c cs =>
      cases f₂ with
      | zero => simp at h2
      | succ g₂ =>
        simp only [findCloserF]
        by_cases hc : c = ';'
        · rw [if_pos hc, if_pos hc]
          by_cases hrc : countRun (c :: cs) = count
          · rw [if_pos hrc, if_pos hrc]
          · rw [if_neg hrc, if_neg hrc]
            have hd := dropSemis_length_semi cs hc
            simp only [List.length_cons] at h1 h2
            exact ih g₂ _ _ (by omega) (by omega)
        · rw [if_neg hc, if_neg hc]
          simp only [List.length_cons] at h1 h2
          exact ih g₂ _ _ (by omega) (by omega)

theorem fc_spec (count : Nat) : ∀ (fuel : Nat) (s : Str) (off : Nat), s.length ≤ fuel →
    (findCloserF count fuel s off = none → ∀ q l, isRunAt s q l → l ≠ count)
    ∧ (∀ ce me, findCloserF count fuel s off = some (ce, me) →
        off ≤ ce ∧ me = ce + count ∧ isRunAt s (ce - off) count
        ∧ (∀ q l, isRunAt s q l → l = count → ce - off ≤ q)) := by
  intro fuel
  induction fuel with
  | zero =>
    intro s off hs
    have hnil : s = [] := List.length_eq_zero.mp (by omega)
    subst hnil
    constructor
    · intro _ q l hrun
      have h1 := hrun.1
      have h2 := hrun.2.1
      simp only [List.length_nil] at h2
      omega
    · intro ce me hsome
      simp [findCloserF] at hsome
  | succ g ih =>
    intro s off hs
    cases s with
    | nil =>
      constructor
      · intro _ q l hrun
        have h1 := hrun.1
        have h2 := hrun.2.1
        simp only [List.length_nil] at h2
        omega
      · intro ce me hsome
        simp [findCloserF] at hsome
    | cons c cs =>
      by_cases hc : c = ';'
      · have hr : 0 < countRun (c :: cs) := by rw [hc, countRun_cons_semi]; omega
        by_cases hrc : countRun (c :: cs) = count
        · have heq : findCloserF count (g + 1) (c :: cs) off
              = some (off, off + countRun (c :: cs)) := by
            simp only [findCloserF, if_pos hc, if_pos hrc]
          constructor
          · intro hnone
            rw [heq] at hnone
            exact absurd hnone (by simp)
          · intro ce me hsome
            rw [heq] at hsome
            simp only [Option.some.injEq, Prod.mk.injEq] at hsome
            obtain ⟨hce, hme⟩ := hsome
            subst hce
            refine ⟨le_refl _, by omega, ?_, ?_⟩
            · rw [Nat.sub_self]
              exact hrc ▸ isRunAt_zero_of_countRun hr
            · intro q l _ _
              omega
        · have heq : findCloserF count (g + 1) (c :: cs) off
              = findCloserF count g (dropSemis (c :: cs)) (off + countRun (c :: cs)) := by
            simp only [findCloserF, if_pos hc, if_neg hrc]
          have hlen : (dropSemis (c :: cs)).length ≤ g := by
            have := dropSemis_length_semi cs hc
            simp only [List.length_cons] at hs
            omega
          have ihd := ih (dropSemis (c :: cs)) (off + countRun (c :: cs)) hlen
          have htrans : ∀ q l, isRunAt (c :: cs) q l →
              (q = 0 ∧ l = countRun (c :: cs)) ∨
              (1 ≤ q - countRun (c :: cs)
                ∧ isRunAt (dropSemis (c :: cs)) (q - countRun (c :: cs)) l) := by
            intro q l hrun
            cases Nat.eq_zero_or_pos q with
            | inl h0 =>
              subst h0
              exact Or.inl ⟨rfl, (isRunAt_zero_countRun hrun).symm⟩
            | inr hpos =>
              have hgt := isRunAt_pos_gt hrun hpos
              refine Or.inr ⟨by omega, ?_⟩
              rw [dropSemis_eq_drop, isRunAt_drop (countRun_le_length _) (by omega),
                show countRun (c :: cs) + (q - countRun (c :: cs)) = q by omega]
              exact hrun
          have htrans' : ∀ j l, 1 ≤ j → isRunAt (dropSemis (c :: cs)) j l →
              isRunAt (c :: cs) (countRun (c :: cs) + j) l := by
            intro j l hj hrun
            rw [dropSemis_eq_drop] at hrun
            exact (isRunAt_drop (countRun_le_length _) hj).mp hrun
          constructor
          · intro hnone
            rw [heq] at hnone
            intro q l hrun hlc
            rcases htrans q l hrun with ⟨_, hl⟩ | ⟨hj, hrun'⟩
            · exact hrc (hl.symm.trans hlc)
            · exact ihd.1 hnone _ _ hrun' hlc
          · intro ce me hsome
            rw [heq] at hsome
            obtain ⟨h1, h2, h3, h4⟩ := ihd.2 ce me hsome
            have hj1 : 1 ≤ ce - (off + countRun (c :: cs)) := by
              by_contra hz
              push_neg at hz
              have hz0 : ce - (off + countRun (c :: cs)) = 0 := by omega
              rw [hz0] at h3
              exact not_isRunAt_zero (countRun_dropSemis _) count h3
            refine ⟨by omega, h2, ?_, ?_⟩
            · have := htrans' _ count hj1 h3
              rw [show countRun (c :: cs) + (ce - (off + countRun (c :: cs)))
                  = ce - off by omega] at this
              exact this
            · intro q l hrun hlc
              rcases htrans q l hrun with ⟨_, hl⟩ | ⟨hj, hrun'⟩
              · exact absurd (hl.symm.trans hlc) hrc
              · have := h4 _ _ hrun' hlc
                omega
      · have heq : findCloserF count (g + 1) (c :: cs) off
            = findCloserF count g cs (off + 1) := by
          simp only [findCloserF, if_neg hc]
        have hlen : cs.length ≤ g := by
          simp only [List.length_cons] at hs
          omega
        have ihd := ih cs (off + 1) hlen
        have hA : ([c] : Str) = [] ∨ ([c] : Str).getD (([c] : Str).length - 1) 'x' ≠ ';' :=
          Or.inr (by simpa using hc)
        have htrans : ∀ q l, isRunAt (c :: cs) q l → 1 ≤ q ∧ isRunAt cs (q - 1) l := by
          intro q l hrun
          have hq : 1 ≤ q := by
            cases Nat.eq_zero_or_pos q with
            | inl h0 =>
              subst h0
              have hch := hrun.2.2.1 0 hrun.1
              simp only [Nat.add_zero, List.getD_cons_zero] at hch
              exact absurd hch hc
            | inr h => exact h
          refine ⟨hq, ?_⟩
          have hrw : isRunAt ([c] ++ cs) (([c] : Str).length + (q - 1)) l := by
            rw [show ([c] : Str).length + (q - 1) = q by simp; omega, List.singleton_append]
            exact hrun
          exact (isRunAt_append_right hA).mp hrw
        have htrans' : ∀ j l, isRunAt cs j l → isRunAt (c :: cs) (1 + j) l := by
          intro j l hrun
          have := (isRunAt_append_right hA).mpr hrun
          rw [List.singleton_append, show ([c] : Str).length + j = 1 + j by simp] at this
          exact this
        constructor
        · intro hnone
          rw [heq] at hnone
          intro q l hrun hlc
          obtain ⟨hq, hrun'⟩ := htrans q l hrun
          exact ihd.1 hnone _ _ hrun' hlc
        · intro ce me hsome
          rw [heq] at hsome
          obtain ⟨h1, h2, h3, h4⟩ := ihd.2 ce me hsome
          refine ⟨by omega, h2, ?_, ?_⟩
          · have := htrans' _ count h3
            rw [show 1 + (ce - (off + 1)) = ce - off by omega] at this
            exact this
          · intro q l hrun hlc
            obtain ⟨hq, hrun'⟩ := htrans q l hrun
            have := h4 _ _ hrun' hlc
            omega

theorem fc_first {count fuel : Nat} {s : Str} {off : Nat} (hs : s.length ≤ fuel)
    {p : Nat} (h : isRunAt s p count)
    (hfirst : ∀ q l, isRunAt s q l → l = count → p ≤ q) :
    findCloserF count fuel s off = some (off + p, off + p + count) := by
  cases hfc : findCloserF count fuel s off with
  | none => exact absurd rfl ((fc_spec count fuel s off hs).1 hfc p count h)
  | some pr =>
    obtain ⟨ce, me⟩ := pr
    obtain ⟨h1, h2, h3, h4⟩ := (fc_spec count fuel s off hs).2 ce me hfc
    have hpe : ce - off = p := le_antisymm (h4 p count h rfl) (hfirst (ce - off) count h3 rfl)
    have hce : ce = off + p := by omega
    subst hce
    rw [h2]

/-! ## The scanning loop: basic structure -/

theorem cntOf_typeOfCount {r : Nat} (h : r = 2 ∨ r = 3 ∨ r = 4) : cntOf (typeOfCount r) = r := by
  rcases h with h | h | h <;> subst h <;> rfl

theorem dropSemis_drop_eq (line : Str) (i : Nat) :
    dropSemis (line.drop i) = line.drop (i + countRun (line.drop i)) := by
  rw [dropSemis_eq_drop, List.drop_drop]

theorem scanLoopF_congr : ∀ (f₁ f₂ : Nat) (s : Str) (i : Nat),
    s.length ≤ f₁ → s.length ≤ f₂ → scanLoopF f₁ s i = scanLoopF f₂ s i := by
  intro f₁
  induction f₁ with
  | zero =>
    intro f₂ s i h1 _
    have hnil : s = [] := List.length_eq_zero.mp (by omega)
    subst hnil
    cases f₂ <;> rfl
  | succ g ih =>
    intro f₂ s i h1 h2
    cases s with
    | nil => cases f₂ <;> rfl
    | cons c cs =>
      cases f₂ with
      | zero => simp at h2
      | succ g₂ =>
        simp only [List.length_cons] at h1 h2
        by_cases hc : c = ';'
        · have hd := dropSemis_length_semi cs hc
          by_cases h234 : countRun (c :: cs) = 2 ∨ countRun (c :: cs) = 3 ∨ countRun (c :: cs) = 4
          · cases hfc : findCloserF (countRun (c :: cs)) (dropSemis (c :: cs)).length
                (dropSemis (c :: cs)) 0 with
            | some pr =>
              obtain ⟨ce, me⟩ := pr
              have heq1 : scanLoopF (g + 1) (c :: cs) i
                  = ⟨typeOfCount (countRun (c :: cs)), (dropSemis (c :: cs)).take ce, i,
                      i + countRun (c :: cs) + me⟩
                    :: scanLoopF g ((dropSemis (c :: cs)).drop me)
                      (i + countRun (c :: cs) + me) := by
                simp only [scanLoopF, if_pos hc, if_pos h234, hfc]
              have heq2 : scanLoopF (g₂ + 1) (c :: cs) i
                  = ⟨typeOfCount (countRun (c :: cs)), (dropSemis (c :: cs)).take ce, i,
                      i + countRun (c :: cs) + me⟩
                    :: scanLoopF g₂ ((dropSemis (c :: cs)).drop me)
                      (i + countRun (c :: cs) + me) := by
                simp only [scanLoopF, if_pos hc, if_pos h234, hfc]
              have hdl : ((dropSemis (c :: cs)).drop me).length ≤ (dropSemis (c :: cs)).length := by
                rw [List.length_drop]
                omega
              rw [heq1, heq2, ih g₂ _ _ (by omega) (by omega)]
            | none =>
              have heq1 : scanLoopF (g + 1) (c :: cs) i
                  = scanLoopF g (dropSemis (c :: cs)) (i + countRun (c :: cs)) := by
                simp only [scanLoopF, if_pos hc, if_pos h234, hfc]
              have heq2 : scanLoopF (g₂ + 1) (c :: cs) i
                  = scanLoopF g₂ (dropSemis (c :: cs)) (i + countRun (c :: cs)) := by
                simp only [scanLoopF, if_pos hc, if_pos h234, hfc]
              rw [heq1, heq2, ih g₂ _ _ (by omega) (by omega)]
          · have heq1 : scanLoopF (g + 1) (c :: cs) i
                = scanLoopF g (dropSemis (c :: cs)) (i + countRun (c :: cs)) := by
              simp only [scanLoopF, if_pos hc, if_neg h234]
            have heq2 : scanLoopF (g₂ + 1) (c :: cs) i
                = scanLoopF g₂ (dropSemis (c :: cs)) (i + countRun (c :: cs)) := by
              simp only [scanLoopF, if_pos hc, if_neg h234]
            rw [heq1, heq2, ih g₂ _ _ (by omega) (by omega)]
        · have heq1 : scanLoopF (g + 1) (c :: cs) i = scanLoopF g cs (i + 1) := by
            simp only [scanLoopF, if_neg hc]
          have heq2 : scanLoopF (g₂ + 1) (c :: cs) i = scanLoopF g₂ cs (i + 1) := by
            simp only [scanLoopF, if_neg hc]
          rw [heq1, heq2, ih g₂ _ _ (by omega) (by omega)]

theorem scan_shift : ∀ (fuel : Nat) (s : Str) (i d : Nat),
    scanLoopF fuel s (d + i) = (scanLoopF fuel s i).map
      (fun w => ⟨w.type, w.inner, d + w.start, d + w.endIdx⟩) := by
  intro fuel
  induction fuel with
  | zero =>
    intro s i d
    rfl
  | succ g ih =>
    intro s i d
    cases s with
    | nil => rfl
    | cons c cs =>
      by_cases hc : c = ';'
      · by_cases h234 : countRun (c :: cs) = 2 ∨ countRun (c :: cs) = 3 ∨ countRun (c :: cs) = 4
        · cases hfc : findCloserF (countRun (c :: cs)) (dropSemis (c :: cs)).length
              (dropSemis (c :: cs)) 0 with
          | some pr =>
            obtain ⟨ce, me⟩ := pr
            have heq1 : scanLoopF (g + 1) (c :: cs) (d + i)
                = ⟨typeOfCount (countRun (c :: cs)), (dropSemis (c :: cs)).take ce, d + i,
                    d + i + countRun (c :: cs) + me⟩
                  :: scanLoopF g ((dropSemis (c :: cs)).drop me)
                    (d + i + countRun (c :: cs) + me) := by
              simp only [scanLoopF, if_pos hc, if_pos h234, hfc]
            have heq2 : scanLoopF (g + 1) (c :: cs) i
                = ⟨typeOfCount (countRun (c :: cs)), (dropSemis (c :: cs)).take ce, i,
                    i + countRun (c :: cs) + me⟩
                  :: scanLoopF g ((dropSemis (c :: cs)).drop me) (i + countRun (c :: cs) + me) := by
              simp only [scanLoopF, if_pos hc, if_pos h234, hfc]
            rw [heq1, heq2]
            simp only [List.map_cons]
            rw [show d + i + countRun (c :: cs) + me = d + (i + countRun (c :: cs) + me) by omega,
              ih _ (i + countRun (c :: cs) + me) d]
          | none =>
            have heq1 : scanLoopF (g + 1) (c :: cs) (d + i)
                = scanLoopF g (dropSemis (c :: cs)) (d + i + countRun (c :: cs)) := by
              simp only [scanLoopF, if_pos hc, if_pos h234, hfc]
            have heq2 : scanLoopF (g + 1) (c :: cs) i
                = scanLoopF g (dropSemis (c :: cs)) (i + countRun (c :: cs)) := by
              simp only [scanLoopF, if_pos hc, if_pos h234, hfc]
            rw [heq1, heq2, show d + i + countRun (c :: cs) = d + (i + countRun (c :: cs)) by omega]
            exact ih _ _ d
        · have heq1 : scanLoopF (g + 1) (c :: cs) (d + i)
              = scanLoopF g (dropSemis (c :: cs)) (d + i + countRun (c :: cs)) := by
            simp only [scanLoopF, if_pos hc, if_neg h234]
          have heq2 : scanLoopF (g + 1) (c :: cs) i
              = scanLoopF g (dropSemis (c :: cs)) (i + countRun (c :: cs)) := by
            simp only [scanLoopF, if_pos hc, if_neg h234]
          rw [heq1, heq2, show d + i + countRun (c :: cs) = d + (i + countRun (c :: cs)) by omega]
          exact ih _ _ d
      · have heq1 : scanLoopF (g + 1) (c :: cs) (d + i) = scanLoopF g cs (d + i + 1) := by
          simp only [scanLoopF, if_neg hc]
        have heq2 : scanLoopF (g + 1) (c :: cs) i = scanLoopF g cs (i + 1) := by
          simp only [scanLoopF, if_neg hc]
        rw [heq1, heq2, show d + i + 1 = d + (i + 1) by omega]
        exact ih _ _ d

theorem scan_nil_shift {fuel : Nat} {s : Str} {i j : Nat}
    (h : scanLoopF fuel s i = []) : scanLoopF fuel s j = [] := by
  have hi := scan_shift fuel s 0 i
  have hj := scan_shift fuel s 0 j
  simp only [Nat.add_zero] at hi hj
  rw [hi] at h
  rw [hj, List.map_eq_nil_iff.mp h]
  rfl

theorem scan_bounds : ∀ (fuel : Nat) (s : Str) (i : Nat), s.length ≤ fuel →
    (∀ w ∈ scanLoopF fuel s i, i ≤ w.start ∧ w.start < w.endIdx ∧ w.endIdx ≤ i + s.length)
    ∧ List.Pairwise (fun a b => a.endIdx ≤ b.start) (scanLoopF fuel s i) := by
  intro fuel
  induction fuel with
  | zero =>
    intro s i _
    exact ⟨by simp [scanLoopF], by simp [scanLoopF]⟩
  | succ g ih =>
    intro s i hs
    cases s with
    | nil => exact ⟨by simp [scanLoopF], by simp [scanLoopF]⟩
    | cons c cs =>
      simp only [List.length_cons] at hs
      by_cases hc : c = ';'
      · have hr : 0 < countRun (c :: cs) := by rw [hc, countRun_cons_semi]; omega
        have hrle : countRun (c :: cs) ≤ cs.length + 1 := by
          have := countRun_le_length (c :: cs)
          simpa using this
        have hrest : (dropSemis (c :: cs)).length = cs.length + 1 - countRun (c :: cs) := by
          rw [dropSemis_eq_drop, List.length_drop, List.length_cons]
        by_cases h234 : countRun (c :: cs) = 2 ∨ countRun (c :: cs) = 3 ∨ countRun (c :: cs) = 4
        · cases hfc : findCloserF (countRun (c :: cs)) (dropSemis (c :: cs)).length
              (dropSemis (c :: cs)) 0 with
          | some pr =>
            obtain ⟨ce, me⟩ := pr
            have heq : scanLoopF (g + 1) (c :: cs) i
                = ⟨typeOfCount (countRun (c :: cs)), (dropSemis (c :: cs)).take ce, i,
                    i + countRun (c :: cs) + me⟩
                  :: scanLoopF g ((dropSemis (c :: cs)).drop me) (i + countRun (c :: cs) + me) := by
              simp only [scanLoopF, if_pos hc, if_pos h234, hfc]
            obtain ⟨hce0, hme, hrun, _⟩ :=
              (fc_spec (countRun (c :: cs)) (dropSemis (c :: cs)).length
                (dropSemis (c :: cs)) 0 (le_refl _)).2 ce me hfc
            have hmelen : me ≤ (dropSemis (c :: cs)).length := by
              have := hrun.2.1
              omega
            have htail := ih ((dropSemis (c :: cs)).drop me) (i + countRun (c :: cs) + me)
              (by rw [List.length_drop]; omega)
            rw [heq]
            constructor
            · intro w hw
              rcases List.mem_cons.mp hw with h | h
              · subst h
                simp only
                refine ⟨le_refl _, by omega, ?_⟩
                simp only [List.length_cons]
                omega
              · obtain ⟨hb, hb2, hb3⟩ := htail.1 w h
                rw [List.length_drop] at hb3
                refine ⟨by omega, hb2, ?_⟩
                simp only [List.length_cons]
                omega
            · refine List.Pairwise.cons ?_ htail.2
              intro w hw
              exact (htail.1 w hw).1
          | none =>
            have heq : scanLoopF (g + 1) (c :: cs) i
                = scanLoopF g (dropSemis (c :: cs)) (i + countRun (c :: cs)) := by
              simp only [scanLoopF, if_pos hc, if_pos h234, hfc]
            have htail := ih (dropSemis (c :: cs)) (i + countRun (c :: cs)) (by omega)
            rw [heq]
            refine ⟨?_, htail.2⟩
            intro w hw
            obtain ⟨hb1, hb2, hb3⟩ := htail.1 w hw
            simp only [List.length_cons]
            exact ⟨by omega, hb2, by omega⟩
        · have heq : scanLoopF (g + 1) (c :: cs) i
              = scanLoopF g (dropSemis (c :: cs)) (i + countRun (c :: cs)) := by
            simp only [scanLoopF, if_pos hc, if_neg h234]
          have hrest : (dropSemis (c :: cs)).length = cs.length + 1 - countRun (c :: cs) := by
            rw [dropSemis_eq_drop, List.length_drop, List.length_cons]
          have htail := ih (dropSemis (c :: cs)) (i + countRun (c :: cs)) (by omega)
          rw [heq]
          refine ⟨?_, htail.2⟩
          intro w hw
          obtain ⟨hb1, hb2, hb3⟩ := htail.1 w hw
          simp only [List.length_cons]
          exact ⟨by omega, hb2, by omega⟩
      · have heq : scanLoopF (g + 1) (c :: cs) i = scanLoopF g cs (i + 1) := by
          simp only [scanLoopF, if_neg hc]
        have htail := ih cs (i + 1) (by omega)
        rw [heq]
        refine ⟨?_, htail.2⟩
        intro w hw
        obtain ⟨hb1, hb2, hb3⟩ := htail.1 w hw
        simp only [List.length_cons]
        exact ⟨by omega, hb2, by omega⟩

/-! ## The scanning loop: markers sit on maximal runs -/

theorem scan_marker_runs (line : Str) : ∀ (fuel : Nat) (s : Str) (i : Nat),
    s.length ≤ fuel → s = line.drop i → i ≤ line.length →
    (0 < countRun s → i = 0 ∨ line.getD (i - 1) 'x' ≠ ';') →
    ∀ w ∈ scanLoopF fuel s i,
      isRunAt line w.start (cntOf w.type)
      ∧ isRunAt line (w.endIdx - cntOf w.type) (cntOf w.type)
      ∧ w.start + cntOf w.type + cntOf w.type ≤ w.endIdx
      ∧ w.endIdx ≤ line.length
      ∧ w.inner = sliceStr line (w.start + cntOf w.type) (w.endIdx - cntOf w.type) := by
  intro fuel
  induction fuel with
  | zero =>
    intro s i _ _ _ _ w hw
    simp [scanLoopF] at hw
  | succ g ih =>
    intro s i hs hσ hi hinv w hw
    cases s with
    | nil => simp [scanLoopF] at hw
    | cons c cs =>
      simp only [List.length_cons] at hs
      have hlenfact : cs.length + 1 = line.length - i := by
        have := congrArg List.length hσ
        simp only [List.length_cons, List.length_drop] at this
        omega
      have hilt : i < line.length := by omega
      have hgetDi : line.getD i 'x' = c := by
        have h0 := getD_drop line i 0 'x'
        rw [← hσ] at h0
        simpa using h0.symm
      by_cases hc : c = ';'
      · have hrpos : 0 < countRun (c :: cs) := by rw [hc, countRun_cons_semi]; omega
        have hrle : countRun (c :: cs) ≤ cs.length + 1 := by
          have := countRun_le_length (c :: cs)
          simpa using this
        have hrest_line : dropSemis (c :: cs) = line.drop (i + countRun (c :: cs)) := by
          rw [hσ, dropSemis_drop_eq]
        have hrestlen : (dropSemis (c :: cs)).length = cs.length + 1 - countRun (c :: cs) := by
          rw [dropSemis_eq_drop, List.length_drop, List.length_cons]
        have hinv' : 0 < countRun (dropSemis (c :: cs)) →
            i + countRun (c :: cs) = 0 ∨ line.getD (i + countRun (c :: cs) - 1) 'x' ≠ ';' :=
          fun hpos => absurd hpos (by rw [countRun_dropSemis]; omega)
        by_cases h234 : countRun (c :: cs) = 2 ∨ countRun (c :: cs) = 3 ∨ countRun (c :: cs) = 4
        · cases hfc : findCloserF (countRun (c :: cs)) (dropSemis (c :: cs)).length
              (dropSemis (c :: cs)) 0 with
          | some pr =>
            obtain ⟨ce, me⟩ := pr
            have heq : scanLoopF (g + 1) (c :: cs) i
                = ⟨typeOfCount (countRun (c :: cs)), (dropSemis (c :: cs)).take ce, i,
                    i + countRun (c :: cs) + me⟩
                  :: scanLoopF g ((dropSemis (c :: cs)).drop me)
                    (i + countRun (c :: cs) + me) := by
              simp only [scanLoopF, if_pos hc, if_pos h234, hfc]
            obtain ⟨_, hme, hrun, _⟩ :=
              (fc_spec (countRun (c :: cs)) (dropSemis (c :: cs)).length
                (dropSemis (c :: cs)) 0 (le_refl _)).2 ce me hfc
            rw [Nat.sub_zero] at hrun
            have hce1 : 1 ≤ ce := by
              rcases Nat.eq_zero_or_pos ce with h0 | h1
              · rw [h0] at hrun
                exact absurd hrun (not_isRunAt_zero (countRun_dropSemis _) _)
              · exact h1
            have hmelen : me ≤ (dropSemis (c :: cs)).length := by
              have := hrun.2.1
              omega
            have hop : isRunAt line i (countRun (c :: cs)) := by
              refine isRunAt_of_drop_zero (by omega) ?_ (hinv hrpos)
              rw [← hσ]
              exact isRunAt_zero_of_countRun hrpos
            have hirle : i + countRun (c :: cs) ≤ line.length := by omega
            have hclose : isRunAt line (i + countRun (c :: cs) + ce) (countRun (c :: cs)) := by
              rw [← isRunAt_drop hirle hce1, ← hrest_line]
              exact hrun
            rw [heq] at hw
            rcases List.mem_cons.mp hw with hwh | hwt
            · subst hwh
              have hcnt : cntOf (typeOfCount (countRun (c :: cs))) = countRun (c :: cs) :=
                cntOf_typeOfCount h234
              simp only [hcnt]
              refine ⟨hop, ?_, by omega, ?_, ?_⟩
              · rw [show i + countRun (c :: cs) + me - countRun (c :: cs)
                    = i + countRun (c :: cs) + ce by omega]
                exact hclose
              · have := hclose.2.1
                omega
              · rw [sliceStr, show i + countRun (c :: cs) + me - countRun (c :: cs)
                    = i + countRun (c :: cs) + ce by omega, ← hrest_line]
                congr 1
                omega
            · have hdrop_line : (dropSemis (c :: cs)).drop me
                  = line.drop (i + countRun (c :: cs) + me) := by
                rw [hrest_line, List.drop_drop]
              have hcr0 : countRun ((dropSemis (c :: cs)).drop me) = 0 := by
                apply countRun_zero_of_head
                rcases hclose.2.2.2.2 with hend | hne
                · left
                  rw [hdrop_line, show i + countRun (c :: cs) + me
                      = i + countRun (c :: cs) + ce + countRun (c :: cs) by omega, hend]
                  exact List.drop_length line
                · right
                  rw [hdrop_line, getD_drop, Nat.add_zero,
                    show i + countRun (c :: cs) + me
                      = i + countRun (c :: cs) + ce + countRun (c :: cs) by omega]
                  exact hne
              exact ih ((dropSemis (c :: cs)).drop me) (i + countRun (c :: cs) + me)
                (by rw [List.length_drop, hrestlen]; omega)
                hdrop_line
                (by have := hclose.2.1; omega)
                (fun hpos => absurd hpos (by rw [hcr0]; omega))
                w hwt
          | none =>
            have heq : scanLoopF (g + 1) (c :: cs) i
                = scanLoopF g (dropSemis (c :: cs)) (i + countRun (c :: cs)) := by
              simp only [scanLoopF, if_pos hc, if_pos h234, hfc]
            rw [heq] at hw
            exact ih (dropSemis (c :: cs)) (i + countRun (c :: cs))
              (by omega) hrest_line (by omega) hinv' w hw
        · have heq : scanLoopF (g + 1) (c :: cs) i
              = scanLoopF g (dropSemis (c :: cs)) (i + countRun (c :: cs)) := by
            simp only [scanLoopF, if_pos hc, if_neg h234]
          rw [heq] at hw
          exact ih (dropSemis (c :: cs)) (i + countRun (c :: cs))
            (by omega) hrest_line (by omega) hinv' w hw
      · have heq : scanLoopF (g + 1) (c :: cs) i = scanLoopF g cs (i + 1) := by
          simp only [scanLoopF, if_neg hc]
        have hcs_line : cs = line.drop (i + 1) := by
          have : (c :: cs).drop 1 = (line.drop i).drop 1 := by rw [← hσ]
          simpa [List.drop_drop] using this
        rw [heq] at hw
        refine ih cs (i + 1) (by omega) hcs_line (by omega) ?_ w hw
        intro _
        right
        rw [Nat.add_sub_cancel, hgetDi]
        exact hc

/-- (C6) A maximal delimiter run of length 1, or of length 5 or more, never
acts as an opener or closer: no marker's span starts inside such a run and no
marker's span ends inside it — in particular a run of length 5+ is never
reparsed into sub-runs of length 2, 3 or 4. -/
theorem short_or_long_runs_never_open_or_close
    (line lang : Str) (p len : Nat)
    (hrun : isRunAt line p len) (hlen : len = 1 ∨ 5 ≤ len) :
    ∀ w ∈ findWrappersInLine line lang,
      (w.start < p ∨ p + len ≤ w.start) ∧ (w.endIdx ≤ p ∨ p + len < w.endIdx) := by
  intro w hw
  unfold findWrappersInLine at hw
  by_cases hex : commentExcluded line lang
  · rw [if_pos hex] at hw
    simp at hw
  · rw [if_neg hex] at hw
    obtain ⟨hop, hcl, hsep, hle, _⟩ := scan_marker_runs line line.length line 0
      (le_refl _) (by simp) (Nat.zero_le _) (fun _ => Or.inl rfl) w hw
    have hcnt234 : cntOf w.type = 2 ∨ cntOf w.type = 3 ∨ cntOf w.type = 4 := by
      cases w.type <;> simp [cntOf]
    constructor
    · by_contra hcon
      push_neg at hcon
      obtain ⟨h1, h2⟩ := hcon
      have hov := isRunAt_overlap_eq hrun hop h1 h2 (le_refl _) (by omega)
      omega
    · by_contra hcon
      push_neg at hcon
      obtain ⟨h1, h2⟩ := hcon
      have hov := @isRunAt_overlap_eq line p len (w.endIdx - cntOf w.type) (cntOf w.type)
        (w.endIdx - 1) hrun hcl (by omega) (by omega) (by omega) (by omega)
      omega

/-- Closed instance of C6 on `; ;;;;; ;;a;;`: the length-1 run at offset 0 and
the length-5 run at offset 2 open or close nothing; only `;;a;;` is a marker. -/
theorem short_long_runs_claim_witness :
    (isRunAt (chars "; ;;;;; ;;a;;") 2 5 ∧ (5 = 1 ∨ 5 ≤ 5))
    ∧ findWrappersInLine (chars "; ;;;;; ;;a;;") (chars "latex")
        = [⟨WType.inline, chars "a", 8, 13⟩]
    ∧ ∀ w ∈ findWrappersInLine (chars "; ;;;;; ;;a;;") (chars "latex"),
        (w.start < 2 ∨ 2 + 5 ≤ w.start) ∧ (w.endIdx ≤ 2 ∨ 2 + 5 < w.endIdx) :=
  ⟨⟨by decide, by decide⟩, by decide,
   short_or_long_runs_never_open_or_close _ _ 2 5 (by decide) (by decide)⟩

/-! ## The first qualifying run yields its marker (C1) -/

/-- Counterexample to C1 as stated: in `;;; ;;a;; ;;;` the maximal length-2 run
at offset 4 is eventually followed by the same-length run at offset 7, yet the
scanner emits no marker starting at offset 4 — the length-3 opener at offset 0
finds its closer at offset 10 and swallows both length-2 runs into its payload.
So not every well-formed 2/3/4-run followed by a same-length run yields a
marker of its own. -/
theorem not_every_qualifying_run_yields_marker :
    ((2 = 2 ∨ 2 = 3 ∨ 2 = 4)
      ∧ isRunAt (chars ";;; ;;a;; ;;;") 4 2
      ∧ isRunAt (chars ";;; ;;a;; ;;;") 7 2
      ∧ 4 + 2 ≤ 7)
    ∧ findWrappersInLine (chars ";;; ;;a;; ;;;") (chars "latex")
        = [⟨WType.display, chars " ;;a;; ", 0, 13⟩]
    ∧ ∀ w ∈ findWrappersInLine (chars ";;; ;;a;; ;;;") (chars "latex"), w.start ≠ 4 :=
  ⟨⟨by decide, by decide, by decide, by decide⟩, by decide, by decide⟩

theorem scan_first_qualifying (line : Str) (p c q : Nat)
    (hc234 : c = 2 ∨ c = 3 ∨ c = 4)
    (hp : isRunAt line p c) (hq : isRunAt line q c) (hpq : p + c ≤ q)
    (hqfirst : ∀ q', isRunAt line q' c → p + c ≤ q' → q ≤ q')
    (hnoq : ∀ u c', u < p → (c' = 2 ∨ c' = 3 ∨ c' = 4) → isRunAt line u c' →
        ∀ q', isRunAt line q' c' → u + c' ≤ q' → False) :
    ∀ (fuel : Nat) (s : Str) (i : Nat), s.length ≤ fuel → s = line.drop i → i ≤ p →
    (0 < countRun s → i = 0 ∨ line.getD (i - 1) 'x' ≠ ';') →
    (⟨typeOfCount c, sliceStr line (p + c) q, p, q + c⟩ : Wrapper) ∈ scanLoopF fuel s i := by
  have hplen : p + c ≤ line.length := hp.2.1
  have hcpos : 0 < c := hp.1
  intro fuel
  induction fuel with
  | zero =>
    intro s i hs hσ hip _
    have : (line.drop i).length = line.length - i := List.length_drop _ _
    rw [← hσ] at this
    omega
  | succ g ih =>
    intro s i hs hσ hip hinv
    cases s with
    | nil =>
      have : (line.drop i).length = line.length - i := List.length_drop _ _
      rw [← hσ] at this
      simp only [List.length_nil] at this
      omega
    | cons x cs =>
      simp only [List.length_cons] at hs
      have hlenfact : cs.length + 1 = line.length - i := by
        have := congrArg List.length hσ
        simp only [List.length_cons, List.length_drop] at this
        omega
      have hgetDi : line.getD i 'x' = x := by
        have h0 := getD_drop line i 0 'x'
        rw [← hσ] at h0
        simpa using h0.symm
      have hgetDp : line.getD p 'x' = ';' := by
        have := hp.2.2.1 0 hcpos
        simpa using this
      by_cases hx : x = ';'
      · have hrpos : 0 < countRun (x :: cs) := by rw [hx, countRun_cons_semi]; omega
        have hrle : countRun (x :: cs) ≤ cs.length + 1 := by
          have := countRun_le_length (x :: cs)
          simpa using this
        have hrun_i : isRunAt line i (countRun (x :: cs)) := by
          refine isRunAt_of_drop_zero (by omega) ?_ (hinv hrpos)
          rw [← hσ]
          exact isRunAt_zero_of_countRun hrpos
        have hrest_line : dropSemis (x :: cs) = line.drop (i + countRun (x :: cs)) := by
          rw [hσ, dropSemis_drop_eq]
        have hrestlen : (dropSemis (x :: cs)).length = cs.length + 1 - countRun (x :: cs) := by
          rw [dropSemis_eq_drop, List.length_drop, List.length_cons]
        by_cases hi_eq : i = p
        · subst hi_eq
          have hrc : countRun (x :: cs) = c := by
            rw [hσ]
            exact countRun_drop_of_isRunAt hp
          have hqgt : i + c < q := by
            rcases Nat.eq_or_lt_of_le hpq with he | hlt
            · exfalso
              rcases hq.2.2.2.1 with h0 | hne
              · omega
              · apply hne
                have := hp.2.2.1 (c - 1) (by omega)
                rw [show i + (c - 1) = q - 1 by omega] at this
                exact this
            · exact hlt
          have hje : 1 ≤ q - (i + c) := by omega
          have hrunq : isRunAt (dropSemis (x :: cs)) (q - (i + c)) c := by
            rw [hrest_line, hrc, isRunAt_drop (by omega) hje,
              show i + c + (q - (i + c)) = q by omega]
            exact hq
          have hfirstq : ∀ q₀ l, isRunAt (dropSemis (x :: cs)) q₀ l → l = c →
              q - (i + c) ≤ q₀ := by
            intro q₀ l hr hl
            rw [hl] at hr
            rcases Nat.eq_zero_or_pos q₀ with h0 | h1
            · rw [h0] at hr
              exact absurd hr (not_isRunAt_zero (countRun_dropSemis _) _)
            · rw [hrest_line, hrc, isRunAt_drop (by omega) h1] at hr
              have := hqfirst (i + c + q₀) hr (by omega)
              omega
          have hfc : findCloserF c (dropSemis (x :: cs)).length (dropSemis (x :: cs)) 0
              = some (q - (i + c), q - (i + c) + c) := by
            have hfF : findCloserF c (dropSemis (x :: cs)).length (dropSemis (x :: cs)) 0
                = some (0 + (q - (i + c)), 0 + (q - (i + c)) + c) :=
              fc_first (le_refl (dropSemis (x :: cs)).length) hrunq hfirstq
            simpa using hfF
          have h234 : countRun (x :: cs) = 2 ∨ countRun (x :: cs) = 3
              ∨ countRun (x :: cs) = 4 := by rw [hrc]; exact hc234
          have heq : scanLoopF (g + 1) (x :: cs) i
              = ⟨typeOfCount (countRun (x :: cs)), (dropSemis (x :: cs)).take (q - (i + c)), i,
                  i + countRun (x :: cs) + (q - (i + c) + c)⟩
                :: scanLoopF g ((dropSemis (x :: cs)).drop (q - (i + c) + c))
                  (i + countRun (x :: cs) + (q - (i + c) + c)) := by
            rw [show findCloserF c (dropSemis (x :: cs)).length (dropSemis (x :: cs)) 0
                = findCloserF (countRun (x :: cs)) (dropSemis (x :: cs)).length
                  (dropSemis (x :: cs)) 0 by rw [hrc]] at hfc
            simp only [scanLoopF, if_pos hx, if_pos h234, hfc]
          rw [heq]
          apply List.mem_cons.mpr
          left
          have hinner : sliceStr line (i + c) q = (dropSemis (x :: cs)).take (q - (i + c)) := by
            rw [sliceStr, hrest_line, hrc]
          rw [hinner, hrc]
          congr 1
          omega
        · have hilt : i < p := by omega
          have hpir : i + countRun (x :: cs) ≤ p := by
            by_contra hcon
            push_neg at hcon
            have hch := hrun_i.2.2.1 (p - 1 - i) (by omega)
            rw [show i + (p - 1 - i) = p - 1 by omega] at hch
            rcases hp.2.2.2.1 with h0 | hne
            · omega
            · exact hne hch
          have hinv' : 0 < countRun (dropSemis (x :: cs)) →
              i + countRun (x :: cs) = 0
                ∨ line.getD (i + countRun (x :: cs) - 1) 'x' ≠ ';' :=
            fun hpos => absurd hpos (by rw [countRun_dropSemis]; omega)
          by_cases h234 : countRun (x :: cs) = 2 ∨ countRun (x :: cs) = 3
              ∨ countRun (x :: cs) = 4
          · have hfcn : findCloserF (countRun (x :: cs)) (dropSemis (x :: cs)).length
                (dropSemis (x :: cs)) 0 = none := by
              cases hfc : findCloserF (countRun (x :: cs)) (dropSemis (x :: cs)).length
                  (dropSemis (x :: cs)) 0 with
              | none => rfl
              | some pr =>
                exfalso
                obtain ⟨ce, me⟩ := pr
                obtain ⟨_, _, hrun, _⟩ :=
                  (fc_spec (countRun (x :: cs)) (dropSemis (x :: cs)).length
                    (dropSemis (x :: cs)) 0 (le_refl _)).2 ce me hfc
                rw [Nat.sub_zero] at hrun
                have hce1 : 1 ≤ ce := by
                  rcases Nat.eq_zero_or_pos ce with h0 | h1
                  · rw [h0] at hrun
                    exact absurd hrun (not_isRunAt_zero (countRun_dropSemis _) _)
                  · exact h1
                rw [hrest_line, isRunAt_drop (by omega) hce1] at hrun
                exact hnoq i (countRun (x :: cs)) hilt h234 hrun_i
                  (i + countRun (x :: cs) + ce) hrun (by omega)
            have heq : scanLoopF (g + 1) (x :: cs) i
                = scanLoopF g (dropSemis (x :: cs)) (i + countRun (x :: cs)) := by
              simp only [scanLoopF, if_pos hx, if_pos h234, hfcn]
            rw [heq]
            exact ih (dropSemis (x :: cs)) (i + countRun (x :: cs))
              (by omega) hrest_line hpir hinv'
          · have heq : scanLoopF (g + 1) (x :: cs) i
                = scanLoopF g (dropSemis (x :: cs)) (i + countRun (x :: cs)) := by
              simp only [scanLoopF, if_pos hx, if_neg h234]
            rw [heq]
            exact ih (dropSemis (x :: cs)) (i + countRun (x :: cs))
              (by omega) hrest_line hpir hinv'
      · have hip' : i < p := by
          rcases Nat.eq_or_lt_of_le hip with he | h
          · exfalso
            subst he
            rw [hgetDi] at hgetDp
            exact hx hgetDp
          · exact h
        have heq : scanLoopF (g + 1) (x :: cs) i = scanLoopF g cs (i + 1) := by
          simp only [scanLoopF, if_neg hx]
        have hcs_line : cs = line.drop (i + 1) := by
          have hd : (x :: cs).drop 1 = (line.drop i).drop 1 := by rw [← hσ]
          simpa [List.drop_drop] using hd
        rw [heq]
        refine ih cs (i + 1) (by omega) hcs_line (by omega) ?_
        intro _
        right
        rw [Nat.add_sub_cancel, hgetDi]
        exact hx

/-- (C1, amended) For every line that is not a comment-only line for its kind:
the leftmost maximal run of exactly 2, 3 or 4 delimiter characters that is
eventually followed by a same-length maximal run yields a Marker whose payload
is exactly the substring between it and its first same-length follower and
whose half-open span runs from the first character of that opener run to the
index just after the follower run.  (As stated over *every* such run the claim
fails — see the counterexample — because an earlier qualifying opener may
swallow a later qualifying run into its payload.) -/
theorem leftmost_qualifying_run_yields_marker (line lang : Str) (p c q : Nat)
    (hex : commentExcluded line lang = false)
    (hc234 : c = 2 ∨ c = 3 ∨ c = 4)
    (hp : isRunAt line p c) (hq : isRunAt line q c) (hpq : p + c ≤ q)
    (hqfirst : ∀ q', isRunAt line q' c → p + c ≤ q' → q ≤ q')
    (hnoq : ∀ u c', u < p → (c' = 2 ∨ c' = 3 ∨ c' = 4) → isRunAt line u c' →
        ∀ q', isRunAt line q' c' → u + c' ≤ q' → False) :
    (⟨typeOfCount c, sliceStr line (p + c) q, p, q + c⟩ : Wrapper)
      ∈ findWrappersInLine line lang := by
  unfold findWrappersInLine
  rw [hex]
  simp only [Bool.false_eq_true, if_false]
  exact scan_first_qualifying line p c q hc234 hp hq hpq hqfirst hnoq
    line.length line 0 (le_refl _) (by simp) (Nat.zero_le _) (fun _ => Or.inl rfl)

/-- Closed instance of the amended C1 on `;;a;; x`: the leftmost qualifying
run (offset 0, length 2, first follower at offset 3) yields the inline marker
with payload `a` and span `[0, 5)`. -/
theorem leftmost_qualifying_claim_witness :
    (isRunAt (chars ";;a;; x") 0 2 ∧ isRunAt (chars ";;a;; x") 3 2)
    ∧ (⟨WType.inline, chars "a", 0, 5⟩ : Wrapper)
        ∈ findWrappersInLine (chars ";;a;; x") (chars "latex") := by
  refine ⟨⟨by decide, by decide⟩, ?_⟩
  have h := leftmost_qualifying_run_yields_marker (chars ";;a;; x") (chars "latex") 0 2 3
    (by decide) (by decide) (by decide) (by decide) (by decide)
    (by
      intro q' hr hge
      rcases Nat.lt_or_ge q' 3 with hlt | hge3
      · have hq2 : q' = 2 := by omega
        subst hq2
        exact absurd hr (by decide)
      · exact hge3)
    (fun u c' hcon => absurd hcon (Nat.not_lt_zero u))
  have he : (⟨WType.inline, chars "a", 0, 5⟩ : Wrapper)
      = ⟨typeOfCount 2, sliceStr (chars ";;a;; x") (0 + 2) 3, 0, 3 + 2⟩ := by decide
  rw [he]
  exact h

/-! ## Sorting of the replacement plan and the frame property (C8) -/

theorem insertDesc_perm (e : Entry) (l : List Entry) : (insertDesc e l).Perm (e :: l) := by
  induction l with
  | nil => exact List.Perm.refl _
  | cons x xs ih =>
    simp only [insertDesc]
    split
    · exact List.Perm.refl _
    · exact (ih.cons x).trans (List.Perm.swap e x xs)

theorem sortDesc_perm (l : List Entry) : (sortDesc l).Perm l := by
  induction l with
  | nil => exact List.Perm.refl _
  | cons e es ih => exact (insertDesc_perm e (sortDesc es)).trans (ih.cons e)

theorem insertDesc_sorted (e : Entry) (l : List Entry)
    (h : List.Pairwise (fun a b => b.start ≤ a.start) l) :
    List.Pairwise (fun a b => b.start ≤ a.start) (insertDesc e l) := by
  induction l with
  | nil => simp [insertDesc]
  | cons x xs ih =>
    simp only [insertDesc]
    split
    · next hxe =>
      refine List.Pairwise.cons ?_ h
      intro b hb
      rcases List.mem_cons.mp hb with hb | hb
      · subst hb
        exact hxe
      · exact le_trans (List.rel_of_pairwise_cons h hb) hxe
    · next hxe =>
      push_neg at hxe
      refine List.Pairwise.cons ?_ (ih (List.Pairwise.of_cons h))
      intro b hb
      rcases List.mem_cons.mp ((insertDesc_perm e xs).mem_iff.mp hb) with hb | hb
      · subst hb
        exact le_of_lt hxe
      · exact List.rel_of_pairwise_cons h hb

theorem sortDesc_sorted (l : List Entry) :
    List.Pairwise (fun a b => b.start ≤ a.start) (sortDesc l) := by
  induction l with
  | nil => simp [sortDesc]
  | cons e es ih => exact insertDesc_sorted e (sortDesc es) ih

theorem take_slice_drop (s : Str) (a b : Nat) (hab : a ≤ b) :
    s = s.take a ++ sliceStr s a b ++ s.drop b := by
  rw [sliceStr]
  have h2 : (s.drop a).drop (b - a) = s.drop b := by
    rw [List.drop_drop]
    congr 1
    omega
  calc s = s.take a ++ s.drop a := (List.take_append_drop a s).symm
    _ = s.take a ++ ((s.drop a).take (b - a) ++ (s.drop a).drop (b - a)) := by
        rw [List.take_append_drop (b - a) (s.drop a)]
    _ = s.take a ++ (s.drop a).take (b - a) ++ (s.drop a).drop (b - a) := by
        rw [List.append_assoc]
    _ = s.take a ++ (s.drop a).take (b - a) ++ s.drop b := by rw [h2]

theorem replaceSpan_length {s : Str} {a b : Nat} (t : Str) (ha : a ≤ s.length) :
    (replaceSpan s a b t).length = a + t.length + (s.length - b) := by
  simp [replaceSpan, Nat.min_eq_left ha]
  omega

theorem drop_replaceSpan_high {s : Str} {st en a : Nat} (t : Str)
    (hen : en ≤ a) (hst : st ≤ s.length) :
    (replaceSpan s st en t).drop (st + t.length + (a - en)) = s.drop a := by
  rw [replaceSpan, List.drop_append_eq_append_drop, List.drop_append_eq_append_drop]
  have hlt : (s.take st).length = st := by simp [hst]
  rw [List.drop_eq_nil_of_le (by omega), List.drop_eq_nil_of_le (by simp [hlt]; omega)]
  simp only [List.nil_append]
  rw [List.drop_drop]
  congr 1
  simp [hlt]
  omega

theorem applyDesc_gap : ∀ (es : List Entry) (s : Str) (a b : Nat),
    a ≤ b → b ≤ s.length →
    List.Pairwise (fun x y => y.start ≤ x.start) es →
    List.Pairwise (fun x y => x.endIdx ≤ y.start ∨ y.endIdx ≤ x.start) es →
    (∀ e ∈ es, e.start < e.endIdx ∧ e.endIdx ≤ s.length) →
    (∀ e ∈ es, e.endIdx ≤ a ∨ b ≤ e.start) →
    ∃ A B, applyDescList s es = A ++ sliceStr s a b ++ B := by
  intro es
  induction es with
  | nil =>
    intro s a b hab hb _ _ _ _
    exact ⟨s.take a, s.drop b, by simpa [applyDescList] using take_slice_drop s a b hab⟩
  | cons e es ih =>
    intro s a b hab hb hsorted hdisj hspans havoid
    have he := hspans e (List.mem_cons_self e es)
    have hestart : e.start ≤ s.length := by omega
    have htail_lt : ∀ e' ∈ es, e'.endIdx ≤ e.start := by
      intro e' he'
      have h1 := List.rel_of_pairwise_cons hsorted he'
      have h2 := List.rel_of_pairwise_cons hdisj he'
      have h3 := hspans e' (List.mem_cons_of_mem e he')
      rcases h2 with h2 | h2
      · omega
      · exact h2
    have hslen : (replaceSpan s e.start e.endIdx e.text).length
        = e.start + e.text.length + (s.length - e.endIdx) := replaceSpan_length _ hestart
    show ∃ A B, applyDescList (replaceSpan s e.start e.endIdx e.text) es = _
    rcases havoid e (List.mem_cons_self e es) with hlow | hhigh
    · -- the span of `e` lies entirely left of the region: the region shifts
      obtain ⟨A, B, hAB⟩ := ih (replaceSpan s e.start e.endIdx e.text)
        (e.start + e.text.length + (a - e.endIdx)) (e.start + e.text.length + (b - e.endIdx))
        (by omega) (by omega)
        (List.Pairwise.of_cons hsorted) (List.Pairwise.of_cons hdisj)
        (fun e' he' => ⟨(hspans e' (List.mem_cons_of_mem e he')).1,
          le_trans (htail_lt e' he') (by omega)⟩)
        (fun e' he' => Or.inl (le_trans (htail_lt e' he') (by omega)))
      refine ⟨A, B, ?_⟩
      rw [hAB]
      have hsl : sliceStr (replaceSpan s e.start e.endIdx e.text)
          (e.start + e.text.length + (a - e.endIdx)) (e.start + e.text.length + (b - e.endIdx))
          = sliceStr s a b := by
        rw [sliceStr, sliceStr, drop_replaceSpan_high e.text hlow hestart]
        congr 1
        omega
      rw [hsl]
    · -- the span of `e` lies entirely right of the region: the region is untouched
      obtain ⟨A, B, hAB⟩ := ih (replaceSpan s e.start e.endIdx e.text) a b
        hab (by omega)
        (List.Pairwise.of_cons hsorted) (List.Pairwise.of_cons hdisj)
        (fun e' he' => ⟨(hspans e' (List.mem_cons_of_mem e he')).1,
          le_trans (htail_lt e' he') (by omega)⟩)
        (fun e' he' => havoid e' (List.mem_cons_of_mem e he'))
      refine ⟨A, B, ?_⟩
      rw [hAB]
      have hsl : sliceStr (replaceSpan s e.start e.endIdx e.text) a b = sliceStr s a b :=
        slice_congr_take (replaceSpan_take_left s e.start e.endIdx e.text hestart) hhigh
      rw [hsl]

theorem buildMath_cons (d : Delims) (o : Str) (w : Wrapper) (ws : List Wrapper)
    (lat : List Str) :
    buildMathReplacements d o (w :: ws) lat
      = (if jsTrim (lat.headD []) = [] then []
         else [⟨w.start, w.endIdx, mathWrapText d o w (jsTrim (lat.headD []))⟩])
        ++ buildMathReplacements d o ws (lat.drop 1) := rfl

theorem buildAnything_cons (w : Wrapper) (ws : List Wrapper) (g : Str → Option Str) :
    buildAnythingReplacements (w :: ws) g
      = (if jsTrim w.inner = [] then []
         else
           match g (jsTrim w.inner) with
           | none => []
           | some gg => if jsTrim gg = [] then [] else [⟨w.start, w.endIdx, jsTrim gg⟩])
        ++ buildAnythingReplacements ws g := rfl

theorem buildMath_blank_cons (d : Delims) (o : Str) (w : Wrapper) (m₂ : List Wrapper)
    (lat : List Str) (h : jsTrim (lat.headD []) = []) :
    buildMathReplacements d o (w :: m₂) lat = buildMathReplacements d o m₂ (lat.drop 1) := by
  rw [buildMath_cons, if_pos h]
  rfl

theorem buildMath_mem_spec (d : Delims) (o : Str) :
    ∀ (mws : List Wrapper) (lat : List Str), ∀ e ∈ buildMathReplacements d o mws lat,
      ∃ v ∈ mws, e.start = v.start ∧ e.endIdx = v.endIdx := by
  intro mws
  induction mws with
  | nil =>
    intro lat e he
    simp [buildMathReplacements] at he
  | cons w ws ih =>
    intro lat e he
    rw [buildMath_cons] at he
    rcases List.mem_append.mp he with h | h
    · by_cases hb : jsTrim (lat.headD []) = []
      · rw [if_pos hb] at h
        simp at h
      · rw [if_neg hb] at h
        simp only [List.mem_singleton] at h
        subst h
        exact ⟨w, List.mem_cons_self w ws, rfl, rfl⟩
    · obtain ⟨v, hv, h1, h2⟩ := ih (lat.drop 1) e h
      exact ⟨v, List.mem_cons_of_mem w hv, h1, h2⟩

theorem buildAnything_mem_spec (g : Str → Option Str) :
    ∀ (aws : List Wrapper), ∀ e ∈ buildAnythingReplacements aws g,
      ∃ v ∈ aws, e.start = v.start ∧ e.endIdx = v.endIdx ∧ jsTrim v.inner ≠ []
        ∧ ∃ gg, g (jsTrim v.inner) = some gg ∧ jsTrim gg ≠ [] ∧ e.text = jsTrim gg := by
  intro aws
  induction aws with
  | nil =>
    intro e he
    simp [buildAnythingReplacements] at he
  | cons w ws ih =>
    intro e he
    rw [buildAnything_cons] at he
    rcases List.mem_append.mp he with h | h
    · by_cases hi : jsTrim w.inner = []
      · rw [if_pos hi] at h
        simp at h
      · rw [if_neg hi] at h
        split at h
        · simp at h
        · next gg hg =>
          by_cases hgb : jsTrim gg = []
          · rw [if_pos hgb] at h
            simp at h
          · rw [if_neg hgb] at h
            simp only [List.mem_singleton] at h
            subst h
            exact ⟨w, List.mem_cons_self w ws, rfl, rfl, hi, gg, hg, hgb, rfl⟩
    · obtain ⟨v, hv, rest⟩ := ih e h
      exact ⟨v, List.mem_cons_of_mem w hv, rest⟩

theorem buildAnything_mem_intro (g : Str → Option Str) :
    ∀ (aws : List Wrapper) (w' : Wrapper) (gg : Str), w' ∈ aws →
      jsTrim w'.inner ≠ [] → g (jsTrim w'.inner) = some gg → jsTrim gg ≠ [] →
      (⟨w'.start, w'.endIdx, jsTrim gg⟩ : Entry) ∈ buildAnythingReplacements aws g := by
  intro aws
  induction aws with
  | nil =>
    intro w' gg hmem
    simp at hmem
  | cons w ws ih =>
    intro w' gg hmem hi hg hgb
    rw [buildAnything_cons]
    rcases List.mem_cons.mp hmem with he | he
    · subst he
      apply List.mem_append_left
      rw [if_neg hi, hg]
      show _ ∈ (if jsTrim gg = [] then ([] : List Entry)
        else [⟨w'.start, w'.endIdx, jsTrim gg⟩])
      rw [if_neg hgb]
      exact List.mem_singleton.mpr rfl
    · exact List.mem_append_right _ (ih w' gg he hi hg hgb)

theorem buildMath_pairwise (d : Delims) (o : Str) :
    ∀ (mws : List Wrapper) (lat : List Str),
      List.Pairwise (fun a b => a.endIdx ≤ b.start) mws →
      List.Pairwise (fun (a b : Entry) => a.endIdx ≤ b.start)
        (buildMathReplacements d o mws lat) := by
  intro mws
  induction mws with
  | nil =>
    intro lat _
    simp [buildMathReplacements]
  | cons w ws ih =>
    intro lat h
    rw [buildMath_cons]
    refine List.pairwise_append.mpr ⟨?_, ih (lat.drop 1) (List.Pairwise.of_cons h), ?_⟩
    · split <;> simp
    · intro a ha b hb
      obtain ⟨v, hv, hb1, hb2⟩ := buildMath_mem_spec d o ws (lat.drop 1) b hb
      have haw : a.endIdx = w.endIdx := by
        by_cases hblank : jsTrim (lat.headD []) = []
        · rw [if_pos hblank] at ha
          simp at ha
        · rw [if_neg hblank] at ha
          simp only [List.mem_singleton] at ha
          subst ha
          rfl
      rw [haw, hb1]
      exact List.rel_of_pairwise_cons h hv

theorem buildAnything_pairwise (g : Str → Option Str) :
    ∀ (aws : List Wrapper),
      List.Pairwise (fun a b => a.endIdx ≤ b.start) aws →
      List.Pairwise (fun (a b : Entry) => a.endIdx ≤ b.start)
        (buildAnythingReplacements aws g) := by
  intro aws
  induction aws with
  | nil =>
    intro _
    simp [buildAnythingReplacements]
  | cons w ws ih =>
    intro h
    rw [buildAnything_cons]
    refine List.pairwise_append.mpr ⟨?_, ih (List.Pairwise.of_cons h), ?_⟩
    · split
      · simp
      · split
        · simp
        · split <;> simp
    · intro a ha b hb
      obtain ⟨v, hv, hb1, _⟩ := buildAnything_mem_spec g ws b hb
      have haw : a.endIdx = w.endIdx := by
        by_cases hi : jsTrim w.inner = []
        · rw [if_pos hi] at ha
          simp at ha
        · rw [if_neg hi] at ha
          split at ha
          · simp at ha
          · next gg hg =>
            by_cases hgb : jsTrim gg = []
            · rw [if_pos hgb] at ha
              simp at ha
            · rw [if_neg hgb] at ha
              simp only [List.mem_singleton] at ha
              subst ha
              rfl
      rw [haw, hb1]
      exact List.rel_of_pairwise_cons h hv

theorem processReplacements_eq (d : Delims) (o : Str) (ws : List Wrapper)
    (mathRes : Option (List Str)) (anyGen : Str → Option Str) :
    processReplacements d o ws mathRes anyGen
      = buildMathReplacements d o
          (ws.filter (fun v => v.type == WType.inline || v.type == WType.display))
          (mathRes.getD [])
        ++ buildAnythingReplacements (ws.filter (fun v => v.type == WType.anything)) anyGen := by
  simp only [processReplacements]
  split
  · next h =>
    rw [List.isEmpty_iff.mp h]
    rfl
  · rfl

theorem findWrappers_bounds_chain (line lang : Str) :
    (∀ w ∈ findWrappersInLine line lang, w.start < w.endIdx ∧ w.endIdx ≤ line.length)
    ∧ List.Pairwise (fun a b => a.endIdx ≤ b.start) (findWrappersInLine line lang) := by
  unfold findWrappersInLine
  split
  · simp
  · have h := scan_bounds line.length line 0 (le_refl _)
    refine ⟨fun w hw => ⟨(h.1 w hw).2.1, ?_⟩, h.2⟩
    have := (h.1 w hw).2.2
    omega

theorem findWrappers_disjoint_forall (line lang : Str) :
    ∀ v₁ ∈ findWrappersInLine line lang, ∀ v₂ ∈ findWrappersInLine line lang, v₁ ≠ v₂ →
      v₁.endIdx ≤ v₂.start ∨ v₂.endIdx ≤ v₁.start := by
  have hsym : List.Pairwise (fun (a b : Wrapper) => a.endIdx ≤ b.start ∨ b.endIdx ≤ a.start)
      (findWrappersInLine line lang) :=
    (findWrappers_bounds_chain line lang).2.imp (fun h => Or.inl h)
  intro v₁ h₁ v₂ h₂ hne
  exact List.Pairwise.forall (fun _ _ h => Or.symm h) hsym h₁ h₂ hne

theorem findWrappers_nodup (line lang : Str) : (findWrappersInLine line lang).Nodup := by
  have hb := (findWrappers_bounds_chain line lang).1
  refine List.Pairwise.imp_of_mem ?_ (findWrappers_bounds_chain line lang).2
  intro a b ha _ hr he
  subst he
  have := (hb a ha).1
  omega

/-- (C8) A marker whose generated replacement text is blank after trimming
(a math marker whose response slot trims to empty, or a free-form marker whose
generated text trims to empty) receives no replacement plan entry and no edit
on its span: every entry of the plan lies entirely outside the marker's span,
the marker's original wrapped text survives character-for-character as a
contiguous block of the final output, and the other markers' successful
replacements are still applied. -/
theorem blank_generation_leaves_span_untouched
    (d : Delims) (line lang : Str) (mathRes : Option (List Str)) (anyGen : Str → Option Str)
    (w : Wrapper) (hw : w ∈ findWrappersInLine line lang)
    (hblank :
      (∃ m₁ m₂, (findWrappersInLine line lang).filter
            (fun v => v.type == WType.inline || v.type == WType.display) = m₁ ++ w :: m₂
          ∧ jsTrim ((mathRes.getD []).getD m₁.length []) = [])
      ∨ (w.type = WType.anything
          ∧ ∀ g, anyGen (jsTrim w.inner) = some g → jsTrim g = [])) :
    (∀ e ∈ processReplacements d line (findWrappersInLine line lang) mathRes anyGen,
        e.endIdx ≤ w.start ∨ w.endIdx ≤ e.start)
    ∧ (∃ A B, processLineFinalText d line lang mathRes anyGen
        = A ++ sliceStr line w.start w.endIdx ++ B)
    ∧ (∀ w' ∈ (findWrappersInLine line lang).filter (fun v => v.type == WType.anything),
        ∀ g, jsTrim w'.inner ≠ [] → anyGen (jsTrim w'.inner) = some g → jsTrim g ≠ [] →
        ∃ e ∈ processReplacements d line (findWrappersInLine line lang) mathRes anyGen,
          e.start = w'.start ∧ e.endIdx = w'.endIdx ∧ e.text = jsTrim g) := by
  have hbc := findWrappers_bounds_chain line lang
  have hdisjf := findWrappers_disjoint_forall line lang
  have hnd := findWrappers_nodup line lang
  have hwb := hbc.1 w hw
  have hEq := processReplacements_eq d line (findWrappersInLine line lang) mathRes anyGen
  have hkey : ∀ e ∈ processReplacements d line (findWrappersInLine line lang) mathRes anyGen,
      ∃ v ∈ findWrappersInLine line lang, v ≠ w ∧ e.start = v.start ∧ e.endIdx = v.endIdx := by
    intro e he
    rw [hEq] at he
    rcases List.mem_append.mp he with hm | ha
    · rcases hblank with ⟨m₁, m₂, hsplit, hslot⟩ | ⟨hwany, _⟩
      · rw [hsplit, buildMath_append] at hm
        have hmid := buildMath_blank_cons d line w m₂ ((mathRes.getD []).drop m₁.length)
          (by rw [headD_drop]; exact hslot)
        rw [hmid] at hm
        have hnf : (m₁ ++ w :: m₂).Nodup := hsplit ▸ hnd.filter _
        have hwnotm : w ∉ m₁ ∧ w ∉ m₂ := by
          rw [List.nodup_append] at hnf
          refine ⟨fun hc => hnf.2.2 hc (List.mem_cons_self w m₂), ?_⟩
          have h2 := hnf.2.1
          rw [List.nodup_cons] at h2
          exact h2.1
        rcases List.mem_append.mp hm with h1 | h1
        · obtain ⟨v, hv, he1, he2⟩ := buildMath_mem_spec d line m₁ _ e h1
          refine ⟨v, ?_, fun hc => hwnotm.1 (hc ▸ hv), he1, he2⟩
          have hvm : v ∈ m₁ ++ w :: m₂ := List.mem_append_left _ hv
          rw [← hsplit] at hvm
          exact List.mem_of_mem_filter hvm
        · obtain ⟨v, hv, he1, he2⟩ := buildMath_mem_spec d line m₂ _ e h1
          refine ⟨v, ?_, fun hc => hwnotm.2 (hc ▸ hv), he1, he2⟩
          have hvm : v ∈ m₁ ++ w :: m₂ := List.mem_append_right _ (List.mem_cons_of_mem _ hv)
          rw [← hsplit] at hvm
          exact List.mem_of_mem_filter hvm
      · obtain ⟨v, hv, he1, he2⟩ := buildMath_mem_spec d line _ _ e hm
        have hvt := List.of_mem_filter hv
        simp only [Bool.or_eq_true, beq_iff_eq] at hvt
        refine ⟨v, List.mem_of_mem_filter hv, ?_, he1, he2⟩
        intro hc
        rw [hc, hwany] at hvt
        rcases hvt with h | h <;> exact absurd h (by decide)
    · obtain ⟨v, hv, he1, he2, hvin, gg, hgg, hggb, _⟩ := buildAnything_mem_spec anyGen _ e ha
      have hvt := List.of_mem_filter hv
      simp only [beq_iff_eq] at hvt
      refine ⟨v, List.mem_of_mem_filter hv, ?_, he1, he2⟩
      rcases hblank with ⟨m₁, m₂, hsplit, _⟩ | ⟨hwany, hgb⟩
      · have hwm : w ∈ (findWrappersInLine line lang).filter
            (fun v => v.type == WType.inline || v.type == WType.display) := by
          rw [hsplit]
          exact List.mem_append_right _ (List.mem_cons_self _ _)
        have hwt := List.of_mem_filter hwm
        simp only [Bool.or_eq_true, beq_iff_eq] at hwt
        intro hc
        rw [← hc, hvt] at hwt
        rcases hwt with h | h <;> exact absurd h (by decide)
      · intro hc
        rw [hc] at hgg
        exact hggb (hgb gg hgg)
  have hout : ∀ e ∈ processReplacements d line (findWrappersInLine line lang) mathRes anyGen,
      e.endIdx ≤ w.start ∨ w.endIdx ≤ e.start := by
    intro e he
    obtain ⟨v, hv, hvne, he1, he2⟩ := hkey e he
    rw [he1, he2]
    exact hdisjf v hv w hw hvne
  refine ⟨hout, ?_, ?_⟩
  · have hpairs : List.Pairwise (fun (a b : Entry) => a.endIdx ≤ b.start ∨ b.endIdx ≤ a.start)
        (processReplacements d line (findWrappersInLine line lang) mathRes anyGen) := by
      rw [hEq]
      refine List.pairwise_append.mpr ⟨?_, ?_, ?_⟩
      · exact (buildMath_pairwise d line _ _ (hbc.2.filter _)).imp (fun h => Or.inl h)
      · exact (buildAnything_pairwise anyGen _ (hbc.2.filter _)).imp (fun h => Or.inl h)
      · intro a hamem b hbmem
        obtain ⟨v₁, hv₁, ha1, ha2⟩ := buildMath_mem_spec d line _ _ a hamem
        obtain ⟨v₂, hv₂, hb1, hb2, _⟩ := buildAnything_mem_spec anyGen _ b hbmem
        have ht₁ := List.of_mem_filter hv₁
        have ht₂ := List.of_mem_filter hv₂
        simp only [Bool.or_eq_true, beq_iff_eq] at ht₁ ht₂
        have hne : v₁ ≠ v₂ := by
          intro hc
          rw [hc, ht₂] at ht₁
          rcases ht₁ with h | h <;> exact absurd h (by decide)
        rw [ha1, ha2, hb1, hb2]
        exact hdisjf v₁ (List.mem_of_mem_filter hv₁) v₂ (List.mem_of_mem_filter hv₂) hne
    have hspans : ∀ e ∈ processReplacements d line (findWrappersInLine line lang) mathRes anyGen,
        e.start < e.endIdx ∧ e.endIdx ≤ line.length := by
      intro e he
      obtain ⟨v, hv, _, he1, he2⟩ := hkey e he
      rw [he1, he2]
      exact hbc.1 v hv
    have hperm := sortDesc_perm
      (processReplacements d line (findWrappersInLine line lang) mathRes anyGen)
    have hpair_sorted := (hperm.pairwise_iff (fun h => Or.symm h)).mpr hpairs
    obtain ⟨A, B, hAB⟩ := applyDesc_gap
      (sortDesc (processReplacements d line (findWrappersInLine line lang) mathRes anyGen))
      line w.start w.endIdx (le_of_lt hwb.1) hwb.2
      (sortDesc_sorted _) hpair_sorted
      (fun e he => hspans e (hperm.mem_iff.mp he))
      (fun e he => hout e (hperm.mem_iff.mp he))
    refine ⟨A, B, ?_⟩
    simp only [processLineFinalText]
    exact hAB
  · intro w' hw' g hin hg hgb
    refine ⟨⟨w'.start, w'.endIdx, jsTrim g⟩, ?_, rfl, rfl, rfl⟩
    rw [hEq]
    exact List.mem_append_right _ (buildAnything_mem_intro anyGen _ w' g hw' hin hg hgb)

/-- Closed instance of C8 on `;;a;; ;;;;b;;;;` with a math result that trims to
blank: the inline marker's wrapped text `;;a;;` is untouched in the final
output while the free-form marker is replaced, yielding `;;a;; B`. -/
theorem blank_generation_claim_witness :
    processLineFinalText ⟨⟨chars "$", chars "$"⟩, ⟨chars "$$", chars "$$"⟩⟩
        (chars ";;a;; ;;;;b;;;;") (chars "latex") (some [chars "  "])
        (fun s => if s = chars "b" then some (chars " B ") else none)
      = chars ";;a;; B"
    ∧ (∀ e ∈ processReplacements ⟨⟨chars "$", chars "$"⟩, ⟨chars "$$", chars "$$"⟩⟩
          (chars ";;a;; ;;;;b;;;;")
          (findWrappersInLine (chars ";;a;; ;;;;b;;;;") (chars "latex"))
          (some [chars "  "])
          (fun s => if s = chars "b" then some (chars " B ") else none),
        e.endIdx ≤ 0 ∨ 5 ≤ e.start)
    ∧ (∃ A B, processLineFinalText ⟨⟨chars "$", chars "$"⟩, ⟨chars "$$", chars "$$"⟩⟩
          (chars ";;a;; ;;;;b;;;;") (chars "latex") (some [chars "  "])
          (fun s => if s = chars "b" then some (chars " B ") else none)
        = A ++ sliceStr (chars ";;a;; ;;;;b;;;;") 0 5 ++ B) := by
  have H := blank_generation_leaves_span_untouched
    ⟨⟨chars "$", chars "$"⟩, ⟨chars "$$", chars "$$"⟩⟩
    (chars ";;a;; ;;;;b;;;;") (chars "latex") (some [chars "  "])
    (fun s => if s = chars "b" then some (chars " B ") else none)
    ⟨WType.inline, chars "a", 0, 5⟩ (by decide)
    (Or.inl ⟨[], [], by decide, by decide⟩)
  exact ⟨by decide, H.1, H.2.1⟩

/-! ## Stability of the scan under removal of the last marker (C2) -/

theorem countRun_eq_of_take_eq {u v : Str} {K : Nat} (h : u.take K = v.take K)
    (hKu : K ≤ u.length) (hru : countRun u < K) : countRun v = countRun u := by
  have hKv : K ≤ v.length := by
    have h1 : (u.take K).length = K := by rw [List.length_take]; omega
    have h2 : (v.take K).length = K := by rw [← h, h1]
    rw [List.length_take] at h2
    omega
  refine countRun_eq_of_spec v (countRun u) (by omega) (fun k hk => ?_) ?_
  · rw [← getD_of_take_eq h (by omega) 'x']
    exact countRun_getD u k hk
  · right
    rw [← getD_of_take_eq h hru 'x']
    exact countRun_boundary u (by omega)

/-- Lockstep stability of the scanning loop.  Fix a line whose scan, resumed
from offset `i ≤ s` on the suffix `σ`, still emits the markers `rest` followed
by one final marker with opener run at `s` and span `[s, e)`.  Then the scan of
the shortened line (the line with `[s, e)` spliced out), resumed from the same
offset on its suffix `σ'`, emits exactly `rest`: up to the final opener the two
scans walk the same maximal semicolon runs, because the splice seam joins a
non-semicolon left neighbour of the opener to a non-semicolon right boundary of
the closer, so no run is created, destroyed or reshaped. -/
theorem stab_loop (line : Str) (s e cnt : Nat) (t : WType) (inn : Str)
    (hct : cntOf t = cnt)
    (hop : isRunAt line s cnt)
    (hcl : isRunAt line (e - cnt) cnt)
    (hwe : s + cnt + cnt ≤ e)
    (hwl : e ≤ line.length) :
    ∀ (fuel : Nat) (σ σ' : Str) (i : Nat) (rest : List Wrapper),
      σ = line.drop i → σ' = (line.take s ++ line.drop e).drop i →
      i ≤ s → line.length - i ≤ fuel →
      (0 < countRun σ → i = 0 ∨ line.getD (i - 1) 'x' ≠ ';') →
      scanLoopF fuel σ i = rest ++ [(⟨t, inn, s, e⟩ : Wrapper)] →
      (∀ v ∈ rest, v.endIdx ≤ s) →
      scanLoopF fuel σ' i = rest := by
  have hcpos : 0 < cnt := hop.1
  have hsl : s ≤ line.length := by omega
  have hse : s < e := by omega
  have hA_len : (line.take s).length = s := by
    rw [List.length_take]
    omega
  have hS1 : s = 0 ∨ line.getD (s - 1) 'x' ≠ ';' := hop.2.2.2.1
  have hS2 : e = line.length ∨ line.getD e 'x' ≠ ';' := by
    have h := hcl.2.2.2.2
    rw [show e - cnt + cnt = e by omega] at h
    exact h
  have hopch : line.getD s 'x' = ';' := by
    have h := hop.2.2.1 0 hcpos
    rwa [Nat.add_zero] at h
  have htake_eq : (line.take s ++ line.drop e).take s = line.take s := by
    rw [List.take_append_of_le_length (le_of_eq hA_len.symm), List.take_take, Nat.min_self]
  have hlen' : (line.take s ++ line.drop e).length = s + (line.length - e) := by
    rw [List.length_append, hA_len, List.length_drop]
  have hdrop_s : (line.take s ++ line.drop e).drop s = line.drop e := by
    have h0 : (line.take s).drop s = [] := List.drop_eq_nil_of_le (le_of_eq hA_len)
    rw [List.drop_append_eq_append_drop, h0, List.nil_append, hA_len, Nat.sub_self,
      List.drop_zero]
  have hAor : line.take s = [] ∨ (line.take s).getD ((line.take s).length - 1) 'x' ≠ ';' := by
    rcases Nat.eq_zero_or_pos s with h0 | hspos
    · left
      rw [h0, List.take_zero]
    · right
      rcases hS1 with h0 | hne
      · exact absurd h0 (by omega)
      · have htt : (line.take s).take s = line.take s := by rw [List.take_take, Nat.min_self]
        rw [hA_len, getD_of_take_eq htt (by omega) 'x']
        exact hne
  have hgetD' : ∀ k, k < s → (line.take s ++ line.drop e).getD k 'x' = line.getD k 'x' :=
    fun k hk => getD_of_take_eq htake_eq hk 'x'
  have hBor : line.drop e = [] ∨ (line.drop e).getD 0 'x' ≠ ';' := by
    rcases hS2 with h0 | hne
    · left
      rw [h0]
      exact List.drop_length line
    · right
      rw [getD_drop, Nat.add_zero]
      exact hne
  have hcrB : countRun (line.drop e) = 0 := countRun_zero_of_head _ hBor
  have htake_j : ∀ j, ((line.take s ++ line.drop e).drop j).take (s - j)
      = (line.drop j).take (s - j) := by
    intro j
    rw [← List.drop_take, ← List.drop_take, htake_eq]
  have hT1 : ∀ p l, p + l < s →
      (isRunAt (line.take s ++ line.drop e) p l ↔ isRunAt line p l) := by
    intro p l hpl
    exact isRunAt_take_agree htake_eq (by rw [hlen']; omega) hsl hpl
  have hT2 : ∀ p l, isRunAt (line.take s ++ line.drop e) p l → p + l < s ∨ s ≤ p := by
    intro p l hrun
    rcases Nat.eq_zero_or_pos s with h0 | hspos
    · right
      omega
    · have hAne : line.take s ≠ [] := by
        intro hc
        have h2 := congrArg List.length hc
        rw [hA_len] at h2
        simp at h2
        omega
      rcases hAor with hnil | hlast
      · exact absurd hnil hAne
      · have h := isRunAt_append_not_cross hAne hlast hrun
        rw [hA_len] at h
        exact h
  have hT3 : ∀ p l, s ≤ p → isRunAt (line.take s ++ line.drop e) p l →
      isRunAt line (e + (p - s)) l := by
    intro p l hsp hrun
    have hrw : isRunAt (line.take s ++ line.drop e) ((line.take s).length + (p - s)) l := by
      rw [hA_len, show s + (p - s) = p by omega]
      exact hrun
    have hB := (isRunAt_append_right hAor).mp hrw
    rcases eq_or_lt_of_le hsp with heq | hlt
    · exfalso
      rw [show p - s = 0 by omega] at hB
      exact not_isRunAt_zero hcrB l hB
    · exact (isRunAt_drop hwl (by omega)).mp hB
  intro fuel
  induction fuel with
  | zero =>
    intro σ σ' i rest hσ hσ' hi hfuel hinv h hrest
    simp only [scanLoopF] at h
    cases rest <;> simp at h
  | succ g ih =>
    intro σ σ' i rest hσ hσ' hi hfuel hinv h hrest
    rcases eq_or_lt_of_le hi with hieq | hilt
    · -- the scan has reached the final marker's opener: `rest` must be exhausted
      have hrnil : rest = [] := by
        by_contra hne
        obtain ⟨v, hv⟩ := List.exists_mem_of_ne_nil rest hne
        have hvm : v ∈ scanLoopF (g + 1) σ i := by
          rw [h]
          exact List.mem_append_left _ hv
        have hb := (scan_bounds (g + 1) σ i (by rw [hσ, List.length_drop]; omega)).1 v hvm
        have hv2 := hrest v hv
        omega
      subst hrnil
      rw [List.nil_append] at h
      subst hieq
      cases σ with
      | nil =>
        exfalso
        have h2 := congrArg List.length hσ
        simp only [List.length_nil, List.length_drop] at h2
        omega
      | cons c cs =>
        have hc : c = ';' := by
          have h0 : (c :: cs).getD 0 'x' = (line.drop i).getD 0 'x' := by rw [hσ]
          rw [List.getD_cons_zero, getD_drop, Nat.add_zero, hopch] at h0
          exact h0
        have hr : countRun (c :: cs) = cnt := by
          rw [hσ]
          exact countRun_drop_of_isRunAt hop
        have h234 : countRun (c :: cs) = 2 ∨ countRun (c :: cs) = 3 ∨ countRun (c :: cs) = 4 := by
          rw [hr, ← hct]
          cases t <;> simp [cntOf]
        have hds : dropSemis (c :: cs) = line.drop (i + cnt) := by
          rw [hσ, dropSemis_drop_eq, countRun_drop_of_isRunAt hop]
        cases hfc : findCloserF (countRun (c :: cs)) (dropSemis (c :: cs)).length
            (dropSemis (c :: cs)) 0 with
        | none =>
          exfalso
          have heq : scanLoopF (g + 1) (c :: cs) i
              = scanLoopF g (dropSemis (c :: cs)) (i + countRun (c :: cs)) := by
            simp only [scanLoopF, if_pos hc, if_pos h234, hfc]
          rw [heq] at h
          have hwmem : (⟨t, inn, i, e⟩ : Wrapper)
              ∈ scanLoopF g (dropSemis (c :: cs)) (i + countRun (c :: cs)) := by
            rw [h]
            exact List.mem_singleton_self _
          have hlen : (dropSemis (c :: cs)).length ≤ g := by
            rw [hds, List.length_drop]
            omega
          have hb := (scan_bounds g _ _ hlen).1 _ hwmem
          have hb' : i + countRun (c :: cs) ≤ i := hb.1
          omega
        | some pr =>
          obtain ⟨ce, me⟩ := pr
          have heq : scanLoopF (g + 1) (c :: cs) i
              = ⟨typeOfCount (countRun (c :: cs)), (dropSemis (c :: cs)).take ce, i,
                  i + countRun (c :: cs) + me⟩
                :: scanLoopF g ((dropSemis (c :: cs)).drop me)
                  (i + countRun (c :: cs) + me) := by
            simp only [scanLoopF, if_pos hc, if_pos h234, hfc]
          rw [heq] at h
          obtain ⟨hm, htail⟩ := List.cons_eq_cons.mp h
          have hend : i + countRun (c :: cs) + me = e := congrArg Wrapper.endIdx hm
          rw [hr] at hend
          rw [hr] at htail
          have hdd : (dropSemis (c :: cs)).drop me = line.drop e := by
            rw [hds, List.drop_drop, hend]
          rw [hdd] at htail
          have hnil2 : scanLoopF g (line.drop e) i = [] := scan_nil_shift htail
          rw [hσ', hdrop_s,
            scanLoopF_congr (g + 1) g (line.drop e) i (by rw [List.length_drop]; omega)
              (by rw [List.length_drop]; omega)]
          exact hnil2
    · -- strictly before the final opener: both suffixes start with the same character
      cases σ with
      | nil =>
        exfalso
        have h2 := congrArg List.length hσ
        simp only [List.length_nil, List.length_drop] at h2
        omega
      | cons c cs =>
        cases σ' with
        | nil =>
          exfalso
          have h2 := congrArg List.length hσ'
          simp only [List.length_nil, List.length_drop, hlen'] at h2
          omega
        | cons c' cs' =>
          have hcc : c = c' := by
            have h1 : (c :: cs).getD 0 'x' = line.getD i 'x' := by
              rw [hσ, getD_drop, Nat.add_zero]
            have h2 : (c' :: cs').getD 0 'x' = line.getD i 'x' := by
              rw [hσ', getD_drop, Nat.add_zero, hgetD' i hilt]
            simp only [List.getD_cons_zero] at h1 h2
            rw [h1, h2]
          subst hcc
          by_cases hcsemi : c = ';'
          · -- semicolon head: both lines carry the same maximal run here
            have hrpos : 0 < countRun (c :: cs) := by
              rw [hcsemi, countRun_cons_semi]
              omega
            have hleft := hinv hrpos
            have hrunI : isRunAt line i (countRun (c :: cs)) := by
              refine isRunAt_of_drop_zero (by omega) ?_ hleft
              rw [← hσ]
              exact isRunAt_zero_of_countRun hrpos
            have hir : i + countRun (c :: cs) < s := by
              by_contra hcon
              push_neg at hcon
              rcases hS1 with h0 | hne
              · omega
              · have hch := hrunI.2.2.1 (s - 1 - i) (by omega)
                rw [show i + (s - 1 - i) = s - 1 by omega] at hch
                exact hne hch
            have hul : (c :: cs).length = line.length - i := by
              have h2 := congrArg List.length hσ
              rw [List.length_drop] at h2
              exact h2
            have hr' : countRun (c :: cs') = countRun (c :: cs) := by
              have hK : (c :: cs).take (s - i) = (c :: cs').take (s - i) := by
                rw [hσ, hσ']
                exact (htake_j i).symm
              exact countRun_eq_of_take_eq hK (by rw [hul]; omega) (by omega)
            have hds : dropSemis (c :: cs) = line.drop (i + countRun (c :: cs)) := by
              rw [hσ]
              exact dropSemis_drop_eq line i
            have hds' : dropSemis (c :: cs')
                = (line.take s ++ line.drop e).drop (i + countRun (c :: cs)) := by
              rw [← hr', hσ']
              exact dropSemis_drop_eq _ i
            by_cases h234 : countRun (c :: cs) = 2 ∨ countRun (c :: cs) = 3
                ∨ countRun (c :: cs) = 4
            · have h234' : countRun (c :: cs') = 2 ∨ countRun (c :: cs') = 3
                  ∨ countRun (c :: cs') = 4 := by
                rw [hr']
                exact h234
              have hcr0 : countRun (dropSemis (c :: cs)) = 0 := countRun_dropSemis _
              have hcr0' : countRun (dropSemis (c :: cs')) = 0 := countRun_dropSemis _
              have hile' : i + countRun (c :: cs) ≤ (line.take s ++ line.drop e).length := by
                rw [hlen']
                omega
              cases hfc : findCloserF (countRun (c :: cs)) (dropSemis (c :: cs)).length
                  (dropSemis (c :: cs)) 0 with
              | none =>
                have hnone : ∀ q l, isRunAt (dropSemis (c :: cs)) q l →
                    l ≠ countRun (c :: cs) := (fc_spec _ _ _ _ (le_refl _)).1 hfc
                have hfc' : findCloserF (countRun (c :: cs')) (dropSemis (c :: cs')).length
                    (dropSemis (c :: cs')) 0 = none := by
                  cases hfc2 : findCloserF (countRun (c :: cs')) (dropSemis (c :: cs')).length
                      (dropSemis (c :: cs')) 0 with
                  | none => rfl
                  | some pr2 =>
                    exfalso
                    obtain ⟨ce', me'⟩ := pr2
                    obtain ⟨_, _, hrun', _⟩ := (fc_spec _ _ _ _ (le_refl _)).2 ce' me' hfc2
                    rw [Nat.sub_zero] at hrun'
                    have hce1 : 1 ≤ ce' := by
                      rcases Nat.eq_zero_or_pos ce' with h0 | h1
                      · rw [h0] at hrun'
                        exact absurd hrun' (not_isRunAt_zero hcr0' _)
                      · exact h1
                    rw [hr'] at hrun'
                    have habs : isRunAt (line.take s ++ line.drop e)
                        (i + countRun (c :: cs) + ce') (countRun (c :: cs)) := by
                      rw [hds'] at hrun'
                      exact (isRunAt_drop hile' hce1).mp hrun'
                    rcases hT2 _ _ habs with hin | hout
                    · have hlr := (hT1 _ _ hin).mp habs
                      have hρrun : isRunAt (dropSemis (c :: cs)) ce' (countRun (c :: cs)) := by
                        rw [hds]
                        exact (isRunAt_drop (by omega) hce1).mpr hlr
                      exact hnone _ _ hρrun rfl
                    · have hj := hT3 _ _ (by omega) habs
                      have hq1 : 1 ≤ e + (i + countRun (c :: cs) + ce' - s)
                          - (i + countRun (c :: cs)) := by
                        omega
                      have hρrun : isRunAt (dropSemis (c :: cs))
                          (e + (i + countRun (c :: cs) + ce' - s) - (i + countRun (c :: cs)))
                          (countRun (c :: cs)) := by
                        rw [hds]
                        refine (isRunAt_drop (by omega) hq1).mpr ?_
                        rw [show i + countRun (c :: cs)
                            + (e + (i + countRun (c :: cs) + ce' - s) - (i + countRun (c :: cs)))
                            = e + (i + countRun (c :: cs) + ce' - s) by omega]
                        exact hj
                      exact hnone _ _ hρrun rfl
                have heqL : scanLoopF (g + 1) (c :: cs) i
                    = scanLoopF g (dropSemis (c :: cs)) (i + countRun (c :: cs)) := by
                  simp only [scanLoopF, if_pos hcsemi, if_pos h234, hfc]
                have heqR : scanLoopF (g + 1) (c :: cs') i
                    = scanLoopF g (dropSemis (c :: cs')) (i + countRun (c :: cs')) := by
                  simp only [scanLoopF, if_pos hcsemi, if_pos h234', hfc']
                rw [heqL] at h
                rw [heqR, hr']
                exact ih _ _ _ _ hds hds' (by omega) (by omega)
                  (fun hpos => absurd hpos (by rw [countRun_dropSemis]; omega)) h hrest
              | some pr =>
                obtain ⟨ce, me⟩ := pr
                have heqL : scanLoopF (g + 1) (c :: cs) i
                    = ⟨typeOfCount (countRun (c :: cs)), (dropSemis (c :: cs)).take ce, i,
                        i + countRun (c :: cs) + me⟩
                      :: scanLoopF g ((dropSemis (c :: cs)).drop me)
                        (i + countRun (c :: cs) + me) := by
                  simp only [scanLoopF, if_pos hcsemi, if_pos h234, hfc]
                rw [heqL] at h
                cases rest with
                | nil =>
                  exfalso
                  rw [List.nil_append] at h
                  obtain ⟨hm, _⟩ := List.cons_eq_cons.mp h
                  have h2 : i = s := congrArg Wrapper.start hm
                  omega
                | cons m₀ rest' =>
                  rw [List.cons_append] at h
                  obtain ⟨hm, htail⟩ := List.cons_eq_cons.mp h
                  obtain ⟨_, hme, hrun, hfirstρ⟩ := (fc_spec _ _ _ _ (le_refl _)).2 ce me hfc
                  rw [Nat.sub_zero] at hrun hfirstρ
                  have hce1 : 1 ≤ ce := by
                    rcases Nat.eq_zero_or_pos ce with h0 | h1
                    · rw [h0] at hrun
                      exact absurd hrun (not_isRunAt_zero hcr0 _)
                    · exact h1
                  have hm0end : i + countRun (c :: cs) + me ≤ s := by
                    have h2 := hrest m₀ (List.mem_cons_self _ _)
                    rw [← hm] at h2
                    exact h2
                  have hlineRun : isRunAt line (i + countRun (c :: cs) + ce)
                      (countRun (c :: cs)) := by
                    rw [hds] at hrun
                    exact (isRunAt_drop (by omega) hce1).mp hrun
                  have hstrict : i + countRun (c :: cs) + ce + countRun (c :: cs) < s := by
                    rcases Nat.lt_or_ge (i + countRun (c :: cs) + ce + countRun (c :: cs)) s
                      with hlt2 | hge2
                    · exact hlt2
                    · exfalso
                      have heq2 : i + countRun (c :: cs) + ce + countRun (c :: cs) = s := by
                        omega
                      rcases hlineRun.2.2.2.2 with hlen0 | hne
                      · rw [heq2] at hlen0
                        omega
                      · rw [heq2] at hne
                        exact hne hopch
                  have hrun' : isRunAt (dropSemis (c :: cs')) ce (countRun (c :: cs)) := by
                    have habs : isRunAt (line.take s ++ line.drop e)
                        (i + countRun (c :: cs) + ce) (countRun (c :: cs)) :=
                      (hT1 _ _ hstrict).mpr hlineRun
                    rw [hds']
                    exact (isRunAt_drop hile' hce1).mpr habs
                  have hfirst' : ∀ q l, isRunAt (dropSemis (c :: cs')) q l →
                      l = countRun (c :: cs) → ce ≤ q := by
                    intro q l hq hl
                    subst hl
                    have hq1 : 1 ≤ q := by
                      rcases Nat.eq_zero_or_pos q with h0 | h1
                      · rw [h0] at hq
                        exact absurd hq (not_isRunAt_zero hcr0' _)
                      · exact h1
                    have habs : isRunAt (line.take s ++ line.drop e)
                        (i + countRun (c :: cs) + q) (countRun (c :: cs)) := by
                      rw [hds'] at hq
                      exact (isRunAt_drop hile' hq1).mp hq
                    rcases hT2 _ _ habs with hin | hout
                    · have hlr := (hT1 _ _ hin).mp habs
                      have hρq : isRunAt (dropSemis (c :: cs)) q (countRun (c :: cs)) := by
                        rw [hds]
                        exact (isRunAt_drop (by omega) hq1).mpr hlr
                      exact hfirstρ _ _ hρq rfl
                    · omega
                  have hfc' : findCloserF (countRun (c :: cs')) (dropSemis (c :: cs')).length
                      (dropSemis (c :: cs')) 0 = some (ce, me) := by
                    have hfF : findCloserF (countRun (c :: cs)) (dropSemis (c :: cs')).length
                        (dropSemis (c :: cs')) 0
                        = some (0 + ce, 0 + ce + countRun (c :: cs)) :=
                      fc_first (le_refl _) hrun' hfirst'
                    rw [Nat.zero_add] at hfF
                    rw [hr', hme]
                    exact hfF
                  have heqR : scanLoopF (g + 1) (c :: cs') i
                      = ⟨typeOfCount (countRun (c :: cs')), (dropSemis (c :: cs')).take ce, i,
                          i + countRun (c :: cs') + me⟩
                        :: scanLoopF g ((dropSemis (c :: cs')).drop me)
                          (i + countRun (c :: cs') + me) := by
                    simp only [scanLoopF, if_pos hcsemi, if_pos h234', hfc']
                  have htke : (dropSemis (c :: cs')).take ce = (dropSemis (c :: cs)).take ce := by
                    have hcele : ce ≤ s - (i + countRun (c :: cs)) := by omega
                    have hshare := htake_j (i + countRun (c :: cs))
                    have hsh2 := congrArg (List.take ce) hshare
                    rw [List.take_take, List.take_take, Nat.min_eq_left hcele] at hsh2
                    rw [hds, hds']
                    exact hsh2
                  have hm' : (⟨typeOfCount (countRun (c :: cs')), (dropSemis (c :: cs')).take ce,
                      i, i + countRun (c :: cs') + me⟩ : Wrapper) = m₀ := by
                    rw [← hm, hr', htke]
                  have hdsd : (dropSemis (c :: cs)).drop me
                      = line.drop (i + countRun (c :: cs) + me) := by
                    rw [hds, List.drop_drop]
                  have hdsd' : (dropSemis (c :: cs')).drop me
                      = (line.take s ++ line.drop e).drop (i + countRun (c :: cs) + me) := by
                    rw [hds', List.drop_drop]
                  have hbound : line.getD (i + countRun (c :: cs) + me) 'x' ≠ ';' := by
                    rcases hlineRun.2.2.2.2 with h0 | hne
                    · exact absurd h0 (by omega)
                    · rw [show i + countRun (c :: cs) + me
                          = i + countRun (c :: cs) + ce + countRun (c :: cs) by omega]
                      exact hne
                  have hinv3 : 0 < countRun ((dropSemis (c :: cs)).drop me) →
                      i + countRun (c :: cs) + me = 0
                      ∨ line.getD (i + countRun (c :: cs) + me - 1) 'x' ≠ ';' := by
                    intro hpos
                    exfalso
                    have h0 : countRun ((dropSemis (c :: cs)).drop me) = 0 := by
                      apply countRun_zero_of_head
                      right
                      rw [hdsd, getD_drop, Nat.add_zero]
                      exact hbound
                    omega
                  have hrec := ih ((dropSemis (c :: cs)).drop me) ((dropSemis (c :: cs')).drop me)
                    (i + countRun (c :: cs) + me) rest' hdsd hdsd' (by omega) (by omega)
                    hinv3 htail (fun v hv => hrest v (List.mem_cons_of_mem _ hv))
                  rw [heqR, hm', hr', hrec]
            · have h234' : ¬(countRun (c :: cs') = 2 ∨ countRun (c :: cs') = 3
                  ∨ countRun (c :: cs') = 4) := by
                rw [hr']
                exact h234
              have heqL : scanLoopF (g + 1) (c :: cs) i
                  = scanLoopF g (dropSemis (c :: cs)) (i + countRun (c :: cs)) := by
                simp only [scanLoopF, if_pos hcsemi, if_neg h234]
              have heqR : scanLoopF (g + 1) (c :: cs') i
                  = scanLoopF g (dropSemis (c :: cs')) (i + countRun (c :: cs')) := by
                simp only [scanLoopF, if_pos hcsemi, if_neg h234']
              rw [heqL] at h
              rw [heqR, hr']
              exact ih _ _ _ _ hds hds' (by omega) (by omega)
                (fun hpos => absurd hpos (by rw [countRun_dropSemis]; omega)) h hrest
          · -- ordinary character: both scans step over it
            have heqL : scanLoopF (g + 1) (c :: cs) i = scanLoopF g cs (i + 1) := by
              simp only [scanLoopF, if_neg hcsemi]
            have heqR : scanLoopF (g + 1) (c :: cs') i = scanLoopF g cs' (i + 1) := by
              simp only [scanLoopF, if_neg hcsemi]
            rw [heqL] at h
            rw [heqR]
            have hcs : cs = line.drop (i + 1) := by
              have h1 : (c :: cs).drop 1 = (line.drop i).drop 1 := by rw [hσ]
              simpa [List.drop_drop] using h1
            have hcs' : cs' = (line.take s ++ line.drop e).drop (i + 1) := by
              have h1 : (c :: cs').drop 1 = ((line.take s ++ line.drop e).drop i).drop 1 := by
                rw [hσ']
              simpa [List.drop_drop] using h1
            refine ih _ _ _ _ hcs hcs' (by omega) (by omega) ?_ h hrest
            intro _
            right
            have hgi : line.getD i 'x' = c := by
              have h1 : (c :: cs).getD 0 'x' = line.getD i 'x' := by
                rw [hσ, getD_drop, Nat.add_zero]
              rw [List.getD_cons_zero] at h1
              exact h1.symm
            rw [Nat.add_sub_cancel, hgi]
            exact hcsemi

/-- Counterexample to the stability half of C2 as stated: on the markdown line
`<!-- ;;a;; --> ;;b;;` the scanner finds two inline markers, but removing the
span of the last one leaves `<!-- ;;a;; --> `, which trims to a complete HTML
comment — the re-scan returns no markers at all instead of the remaining one,
so the scanner is not stable under right-to-left removal of its own markers
without further provisos. -/
theorem scanner_not_stable_under_last_marker_removal :
    findWrappersInLine (chars "<!-- ;;a;; --> ;;b;;") (chars "markdown")
      = [⟨WType.inline, chars "a", 5, 10⟩] ++ [⟨WType.inline, chars "b", 15, 20⟩]
    ∧ findWrappersInLine
        ((chars "<!-- ;;a;; --> ;;b;;").take 15 ++ (chars "<!-- ;;a;; --> ;;b;;").drop 20)
        (chars "markdown")
      = []
    ∧ findWrappersInLine
        ((chars "<!-- ;;a;; --> ;;b;;").take 15 ++ (chars "<!-- ;;a;; --> ;;b;;").drop 20)
        (chars "markdown")
      ≠ [⟨WType.inline, chars "a", 5, 10⟩] :=
  ⟨by decide, by decide, by decide⟩

/-- (C2, amended) For every input line the markers returned by the scanner are
mutually non-overlapping and sorted by strictly ascending start offset; and
whenever the scan ends with a marker `w`, PROVIDED the shortened line (the line
with `w`'s span removed) is not itself a comment-only line for the document
kind, re-scanning the shortened line reproduces exactly the remaining markers
with identical categories, payloads and spans.  (Without the proviso the
stability half is false: removing the last marker can turn a markdown line
into a comment-only line, which is excluded from scanning altogether.) -/
theorem markers_nonoverlapping_sorted_and_stable (line lang : Str) :
    List.Pairwise (fun a b => a.endIdx ≤ b.start) (findWrappersInLine line lang)
    ∧ List.Pairwise (fun a b => a.start < b.start) (findWrappersInLine line lang)
    ∧ ∀ (rest : List Wrapper) (w : Wrapper),
        findWrappersInLine line lang = rest ++ [w] →
        commentExcluded (line.take w.start ++ line.drop w.endIdx) lang = false →
        findWrappersInLine (line.take w.start ++ line.drop w.endIdx) lang = rest := by
  have hbc := findWrappers_bounds_chain line lang
  refine ⟨hbc.2, ?_, ?_⟩
  · refine List.Pairwise.imp_of_mem ?_ hbc.2
    intro a b ha _ hr
    exact lt_of_lt_of_le (hbc.1 a ha).1 hr
  · intro rest w hsplit hnc
    by_cases hex : commentExcluded line lang
    · exfalso
      have h0 : findWrappersInLine line lang = [] := by
        unfold findWrappersInLine
        rw [if_pos hex]
      rw [h0] at hsplit
      cases rest <;> simp at hsplit
    · have hscan : findWrappersInLine line lang = scanLoopF line.length line 0 := by
        unfold findWrappersInLine
        rw [if_neg hex]
      have hw : w ∈ scanLoopF line.length line 0 := by
        rw [← hscan, hsplit]
        exact List.mem_append_right _ (List.mem_singleton_self _)
      obtain ⟨hop, hcl, hwe, hwl, _⟩ := scan_marker_runs line line.length line 0
        (le_refl _) (by simp) (Nat.zero_le _) (fun _ => Or.inl rfl) w hw
      have hrest : ∀ v ∈ rest, v.endIdx ≤ w.start := by
        have hchain := hbc.2
        rw [hsplit] at hchain
        have h2 := (List.pairwise_append.mp hchain).2.2
        intro v hv
        exact h2 v hv w (List.mem_singleton_self _)
      have hsc2 : scanLoopF line.length line 0
          = rest ++ [(⟨w.type, w.inner, w.start, w.endIdx⟩ : Wrapper)] := by
        rw [← hscan]
        exact hsplit
      have hstab := stab_loop line w.start w.endIdx (cntOf w.type) w.type w.inner rfl
        hop hcl hwe hwl line.length line (line.take w.start ++ line.drop w.endIdx) 0 rest
        (List.drop_zero line).symm (List.drop_zero _).symm (Nat.zero_le _)
        (by omega) (fun _ => Or.inl rfl) hsc2 hrest
      have hlen2 : (line.take w.start ++ line.drop w.endIdx).length ≤ line.length := by
        rw [List.length_append, List.length_take, List.length_drop]
        omega
      unfold findWrappersInLine
      rw [if_neg (by simp [hnc]),
        scanLoopF_congr (line.take w.start ++ line.drop w.endIdx).length line.length
          (line.take w.start ++ line.drop w.endIdx) 0 (le_refl _) hlen2]
      exact hstab

/-- Closed instance of the amended C2 on the latex line `;;a;; ;;b;;`: removing
the span of the last marker leaves `;;a;; `, which is no comment line, and the
re-scan reproduces exactly the remaining marker. -/
theorem markers_stability_claim_witness :
    findWrappersInLine (chars ";;a;; ;;b;;") (chars "latex")
      = [⟨WType.inline, chars "a", 0, 5⟩] ++ [⟨WType.inline, chars "b", 6, 11⟩]
    ∧ findWrappersInLine
        ((chars ";;a;; ;;b;;").take 6 ++ (chars ";;a;; ;;b;;").drop 11) (chars "latex")
      = [⟨WType.inline, chars "a", 0, 5⟩] :=
  ⟨by decide,
   (markers_nonoverlapping_sorted_and_stable (chars ";;a;; ;;b;;") (chars "latex")).2.2
     [⟨WType.inline, chars "a", 0, 5⟩] ⟨WType.inline, chars "b", 6, 11⟩
     (by decide) (by decide)⟩

end LazyLatex
